import Mathlib

/-!
Verification of the log-parser repository (`logparser/logparser.py`): a shallow
embedding of the indexed record container (`LogContainer`), the field-converter
registry, and the streaming multi-line parser (`CustomLog.load`), together with
proofs about the specified properties.

Modelling conventions:
* The code is Python 2 (see `cStringIO`, `iteritems` in the repository).
  Values that can appear as record fields or sort keys are modelled by the
  inductive type `Value`: Python ints (`int`), byte strings (`str`),
  `datetime.datetime` objects (`date`) and `None` (`vnone`).
  `total_seconds()` of a second-resolution datetime difference is integral, so
  it is modelled as an `Int` number of seconds.
* Python raises exceptions; fallible operations return `Except Err _`, and the
  partially-mutating `append` returns the mutated container together with
  `Option Err` (the exception raised, if any), because `LogContainer.append`
  mutates `self` before it can raise.
* Python 2 compares values of different types by an arbitrary fixed total
  order (never raising); `valLT` uses the constructor tag for that case.
  Same-type comparisons (`int`/`int`, `str`/`str` lexicographic by byte,
  `datetime`/`datetime` field-lexicographic) follow Python exactly.
-/

/-- Errors raised by the modelled code. The first four are `ValueError`s of
`logparser.py` (missing searchable field in `append`, unknown field in
`find_by`, unrecognized loglevel in `_loglevel_converter`, invalid date in
`datetime.strptime`); `typeErr` is a Python `TypeError` (e.g. applying a
converter to a value of the wrong type). -/
inductive Err where
  | missingField
  | unknownField
  | unknownLoglevel
  | badDate
  | typeErr
deriving DecidableEq, Repr

instance exceptDecEq {ε α : Type} [DecidableEq ε] [DecidableEq α] :
    DecidableEq (Except ε α) := fun a b =>
  match a, b with
  | .ok x, .ok y =>
    if h : x = y then .isTrue (by rw [h]) else .isFalse (by intro hh; cases hh; exact h rfl)
  | .error x, .error y =>
    if h : x = y then .isTrue (by rw [h]) else .isFalse (by intro hh; cases hh; exact h rfl)
  | .ok _, .error _ => .isFalse (by intro hh; cases hh)
  | .error _, .ok _ => .isFalse (by intro hh; cases hh)

/-- Model of a Python 2 `datetime.datetime` at second resolution (as produced
by `datetime.strptime(s, "%Y-%m-%d %H:%M:%S")`). -/
structure PyDateTime where
  year : Nat
  month : Nat
  day : Nat
  hour : Nat
  minute : Nat
  second : Nat
deriving DecidableEq, Repr

/-- Python `datetime` comparison: lexicographic on the fields. -/
def dateLT (a b : PyDateTime) : Bool :=
  a.year < b.year || (a.year = b.year &&
    (a.month < b.month || (a.month = b.month &&
      (a.day < b.day || (a.day = b.day &&
        (a.hour < b.hour || (a.hour = b.hour &&
          (a.minute < b.minute || (a.minute = b.minute &&
            a.second < b.second)))))))))

theorem dateLT_irrefl (a : PyDateTime) : dateLT a a = false := by
  simp [dateLT]

theorem dateLT_trans {a b c : PyDateTime} (h1 : dateLT a b = true)
    (h2 : dateLT b c = true) : dateLT a c = true := by
  simp only [dateLT, Bool.or_eq_true, Bool.and_eq_true, decide_eq_true_eq] at *
  omega

theorem dateLT_connex {a b : PyDateTime} (h1 : dateLT a b = false)
    (h2 : dateLT b a = false) : a = b := by
  simp only [dateLT, Bool.or_eq_false_iff, Bool.and_eq_false_iff,
    decide_eq_false_iff_not, decide_eq_true_eq] at h1 h2
  obtain ⟨ya, ma, da, ha, mia, sa⟩ := a
  obtain ⟨yb, mb, db, hb, mib, sb⟩ := b
  simp_all only [PyDateTime.mk.injEq]
  omega

/-- Lexicographic comparison of Python 2 byte strings (modelled on the
character list of a Lean string). A strict prefix is smaller. -/
def charsLT : List Char → List Char → Bool
  | [], [] => false
  | [], _ :: _ => true
  | _ :: _, [] => false
  | a :: as, b :: bs => a < b || (a = b && charsLT as bs)

theorem charsLT_irrefl (l : List Char) : charsLT l l = false := by
  induction l with
  | nil => rfl
  | cons a as ih => simp [charsLT, ih]

theorem charsLT_trans : ∀ {l1 l2 l3 : List Char}, charsLT l1 l2 = true →
    charsLT l2 l3 = true → charsLT l1 l3 = true
  | [], [], _, h1, _ => by simp [charsLT] at h1
  | [], _ :: _, [], _, h2 => by simp [charsLT] at h2
  | [], _ :: _, _ :: _, _, _ => rfl
  | _ :: _, [], _, h1, _ => by simp [charsLT] at h1
  | _ :: _, _ :: _, [], _, h2 => by simp [charsLT] at h2
  | a :: as, b :: bs, c :: cs, h1, h2 => by
    simp only [charsLT, Bool.or_eq_true, Bool.and_eq_true, decide_eq_true_eq] at *
    rcases h1 with h1 | ⟨hab, h1⟩
    · rcases h2 with h2 | ⟨hbc, h2⟩
      · exact Or.inl (lt_trans h1 h2)
      · exact Or.inl (hbc ▸ h1)
    · rcases h2 with h2 | ⟨hbc, h2⟩
      · exact Or.inl (hab ▸ h2)
      · exact Or.inr ⟨hab.trans hbc, charsLT_trans h1 h2⟩

theorem charsLT_connex : ∀ {l1 l2 : List Char}, charsLT l1 l2 = false →
    charsLT l2 l1 = false → l1 = l2
  | [], [], _, _ => rfl
  | [], _ :: _, h1, _ => by simp [charsLT] at h1
  | _ :: _, [], _, h2 => by simp [charsLT] at h2
  | a :: as, b :: bs, h1, h2 => by
    simp only [charsLT, Bool.or_eq_false_iff, Bool.and_eq_false_iff,
      decide_eq_false_iff_not, decide_eq_true_eq] at h1 h2
    have hab : a = b := by
      rcases lt_trichotomy a b with h | h | h
      · exact absurd h h1.1
      · exact h
      · exact absurd h h2.1
    subst hab
    rcases h1.2 with h | h
    · exact absurd rfl h
    · rcases h2.2 with h' | h'
      · exact absurd rfl h'
      · exact congrArg (a :: ·) (charsLT_connex h h')

/-- Model of the Python values that occur in this program: ints, byte strings,
`datetime` objects and `None`. -/
inductive Value where
  | int (n : Int)
  | str (s : String)
  | date (d : PyDateTime)
  | vnone
deriving DecidableEq, Repr

/-- Constructor tag, used to model Python 2's fixed arbitrary total order
between values of different types (`None` smallest, numbers below other
types, then by type name). -/
def Value.tag : Value → Nat
  | .vnone => 0
  | .int _ => 1
  | .date _ => 2
  | .str _ => 3

/-- Python 2 `<` on values: same-type comparisons follow Python
(`int` order, byte-lexicographic string order, field-lexicographic
`datetime` order); different types compare by the fixed tag order. -/
def valLT : Value → Value → Bool
  | .int a, .int b => decide (a < b)
  | .str a, .str b => charsLT a.data b.data
  | .date a, .date b => dateLT a b
  | a, b => decide (a.tag < b.tag)

theorem valLT_irrefl (a : Value) : valLT a a = false := by
  cases a <;> simp [valLT, charsLT_irrefl, dateLT_irrefl]

theorem valLT_trans : ∀ {a b c : Value}, valLT a b = true → valLT b c = true →
    valLT a c = true := by
  intro a b c h1 h2
  cases a <;> cases b <;> cases c <;>
    simp only [valLT, Value.tag, decide_eq_true_eq] at * <;>
    first
      | omega
      | exact lt_trans h1 h2
      | exact charsLT_trans h1 h2
      | exact dateLT_trans h1 h2

theorem valLT_connex : ∀ {a b : Value}, valLT a b = false → valLT b a = false →
    a = b := by
  intro a b h1 h2
  cases a <;> cases b <;>
    simp only [valLT, Value.tag, decide_eq_false_iff_not, not_lt,
      Value.int.injEq, Value.str.injEq, Value.date.injEq] at * <;>
    first
      | rfl
      | omega
      | exact le_antisymm h2 h1
      | · have := charsLT_connex h1 h2
          exact String.ext this
      | exact dateLT_connex h1 h2

theorem valLT_asymm {a b : Value} (h : valLT a b = true) : valLT b a = false := by
  cases hba : valLT b a
  · rfl
  · exact absurd (valLT_irrefl a) (by simp [valLT_trans h hba])

/-- Python truthiness of a `Value` (`if value_to:`): `None` and falsy ints
and strings are false; a `datetime` is always truthy. -/
def truthy : Value → Bool
  | .int n => decide (n ≠ 0)
  | .str s => decide (s ≠ "")
  | .date _ => true
  | .vnone => false

/-- Python `<=` on values, as a `Prop` (total order: `¬ b < a`). -/
def ValLE (a b : Value) : Prop := valLT b a = false

instance : DecidablePred (fun p : Value × Value => ValLE p.1 p.2) := fun p => by
  unfold ValLE; infer_instance

instance valLEDec (a b : Value) : Decidable (ValLE a b) := by
  unfold ValLE; infer_instance

/-- Python 2 comparison of the `(sortable_value, entry_index)` tuples that the
buckets hold: lexicographic tuple order. -/
def pltB (x y : Value × Nat) : Bool :=
  valLT x.1 y.1 || (x.1 = y.1 && x.2 < y.2)

theorem pltB_irrefl (x : Value × Nat) : pltB x x = false := by
  simp [pltB, valLT_irrefl]

theorem pltB_trans {x y z : Value × Nat} (h1 : pltB x y = true)
    (h2 : pltB y z = true) : pltB x z = true := by
  simp only [pltB, Bool.or_eq_true, Bool.and_eq_true, decide_eq_true_eq] at *
  rcases h1 with h1 | ⟨e1, h1⟩
  · rcases h2 with h2 | ⟨e2, h2⟩
    · exact Or.inl (valLT_trans h1 h2)
    · exact Or.inl (e2 ▸ h1)
  · rcases h2 with h2 | ⟨e2, h2⟩
    · exact Or.inl (e1 ▸ h2)
    · exact Or.inr ⟨e1.trans e2, lt_trans h1 h2⟩

theorem pltB_asymm {x y : Value × Nat} (h : pltB x y = true) : pltB y x = false := by
  cases hyx : pltB y x
  · rfl
  · exact absurd (pltB_irrefl x) (by simp [pltB_trans h hyx])

/-- Two bucket pairs with distinct indices are strictly comparable. -/
theorem pltB_connex {x y : Value × Nat} (hne : x.2 ≠ y.2) :
    pltB x y = true ∨ pltB y x = true := by
  cases hxy : valLT x.1 y.1
  · cases hyx : valLT y.1 x.1
    · have he : x.1 = y.1 := valLT_connex hxy hyx
      rcases Nat.lt_or_ge x.2 y.2 with h | h
      · exact Or.inl (by simp [pltB, he, h])
      · have : y.2 < x.2 := lt_of_le_of_ne h (Ne.symm hne)
        exact Or.inr (by simp [pltB, he.symm, this])
    · exact Or.inr (by simp [pltB, hyx])
  · exact Or.inl (by simp [pltB, hxy])

/-- Model of `bisect.insort_right(bucket, x)`: insert `x` before the first
element strictly greater than `x`. On a sorted list (the container invariant
maintains sortedness) this is exactly what `bisect.insort_right` does; the
linear scan replaces the binary search, which has the same result there. -/
def insortRight (x : Value × Nat) : List (Value × Nat) → List (Value × Nat)
  | [] => [x]
  | y :: ys => if pltB x y then x :: y :: ys else y :: insortRight x ys

theorem insortRight_perm (x : Value × Nat) (l : List (Value × Nat)) :
    List.Perm (insortRight x l) (x :: l) := by
  induction l with
  | nil => exact List.Perm.refl _
  | cons y ys ih =>
    by_cases h : pltB x y = true
    · simp [insortRight, h]
    · simp only [insortRight, h]
      exact List.Perm.trans (List.Perm.cons y ih) (List.Perm.swap x y ys)

theorem mem_insortRight {x z : Value × Nat} {l : List (Value × Nat)} :
    z ∈ insortRight x l ↔ z = x ∨ z ∈ l := by
  rw [List.Perm.mem_iff (insortRight_perm x l)]
  simp

/-- Inserting a pair comparable with every element keeps the bucket strictly
sorted. -/
theorem insortRight_sorted {x : Value × Nat} {l : List (Value × Nat)}
    (hs : List.Pairwise (fun a b => pltB a b = true) l)
    (hc : ∀ y ∈ l, pltB y x = true ∨ pltB x y = true) :
    List.Pairwise (fun a b => pltB a b = true) (insortRight x l) := by
  induction l with
  | nil => simp [insortRight]
  | cons y ys ih =>
    rcases List.pairwise_cons.mp hs with ⟨hy, hys⟩
    by_cases h : pltB x y = true
    · simp only [insortRight, h, if_true]
      refine List.pairwise_cons.mpr ⟨?_, List.pairwise_cons.mpr ⟨hy, hys⟩⟩
      intro z hz
      rcases List.mem_cons.mp hz with rfl | hz
      · exact h
      · exact pltB_trans h (hy z hz)
    · simp only [insortRight, h, if_false]
      refine List.pairwise_cons.mpr ⟨?_, ih hys (fun z hz => hc z (List.mem_cons_of_mem y hz))⟩
      intro z hz
      rcases mem_insortRight.mp hz with rfl | hz
      · rcases hc y (List.mem_cons_self y ys) with hyx | hxy
        · exact hyx
        · exact absurd hxy h
      · exact hy z hz

/-- Model of `bisect.bisect_left(bucket, x)` on a sorted bucket: the number of
elements strictly below `x` (the length of the maximal such prefix). -/
def bisectLeft (l : List (Value × Nat)) (x : Value × Nat) : Nat :=
  (l.takeWhile (fun y => pltB y x)).length

/-- Model of `bisect.bisect_right(bucket, x, lo)` on a sorted bucket: the
number of elements `<= x`, but at least `lo` (Python searches `bucket[lo:]`,
whose elements are all `> x` when that number is below `lo`). -/
def bisectRightLo (l : List (Value × Nat)) (x : Value × Nat) (lo : Nat) : Nat :=
  max lo (l.takeWhile (fun y => !pltB x y)).length

/-- A log record: duck-typed attribute access is modelled by an association
list from field name to value (`getattr entry field` is the first binding).
`namedtuple` instances have distinct field names, so first-binding lookup is
exact. -/
def Entry : Type := List (String × Value)

instance : DecidableEq Entry := by unfold Entry; infer_instance

/-- Model of `getattr(entry, field)`: `none` models the `AttributeError`. -/
def getattr (e : Entry) (field : String) : Option Value :=
  match e.find? (fun p => p.1 = field) with
  | some p => some p.2
  | none => none

/-- The converter registry. `LogContainer._converters` is a CLASS attribute
(a single dict shared by `LogContainer` and all its subclasses), so it is NOT
part of the container structure: it is passed to each operation explicitly,
modelling the dynamic lookup `self._converters` performs at call time.
`CustomLog.__init__` mutates this shared dict (see `customRegFrom`). -/
def Registry : Type := String → Option (Value → Except Err Value)

/-- Model of `LogContainer._marshall_value`: apply the registered converter
if there is one (a function object is always truthy), else the identity. -/
def marshall_value (reg : Registry) (field : String) (v : Value) : Except Err Value :=
  match reg field with
  | some conv => conv v
  | none => .ok v

/-- Model of a `LogContainer` instance: the entry list, the
`searchable_fields` list given to the constructor, and the per-field sorted
buckets. `_buckets` is a dict whose key set is the set of names in
`searchable_fields`; `buckets` models lookup in it (meaningful only on
searchable names, which is the only place the code reads it after checking
membership / after construction). -/
structure LogContainer where
  entries : List Entry
  searchable_fields : List String
  buckets : String → List (Value × Nat)

/-- Model of `LogContainer.__init__(searchable_fields)`: no entries, an empty
bucket per searchable field. -/
def mkLogContainer (searchable_fields : List String) : LogContainer :=
  { entries := []
    searchable_fields := searchable_fields
    buckets := fun _ => [] }

/-- The per-field loop body sequence of `LogContainer.append`: for each field
of `fields` in order, read the attribute (`AttributeError` becomes the
`ValueError` modelled by `Err.missingField`), convert it, and
`bisect.insort_right` the `(sortable_value, last_index)` pair into that
field's bucket. The first failure stops the loop with the exception;
buckets updated by earlier iterations remain updated. -/
def appendFields (reg : Registry) (e : Entry) (idx : Nat) :
    List String → (String → List (Value × Nat)) →
    (String → List (Value × Nat)) × Option Err
  | [], bks => (bks, none)
  | f :: fs, bks =>
    match getattr e f with
    | none => (bks, some .missingField)
    | some v =>
      match marshall_value reg f v with
      | .error er => (bks, some er)
      | .ok sv =>
        appendFields reg e idx fs (Function.update bks f (insortRight (sv, idx) (bks f)))

/-- Model of `LogContainer.append(entry)`. The entry is appended to
`self._entries` FIRST; then the per-field index insertions run. An exception
(second component) leaves the entry appended and the earlier fields'
insertions committed. -/
def LogContainer.append (reg : Registry) (c : LogContainer) (e : Entry) :
    LogContainer × Option Err :=
  let entries' := c.entries ++ [e]
  let idx := c.entries.length
  let r := appendFields reg e idx c.searchable_fields c.buckets
  ({ c with entries := entries', buckets := r.1 }, r.2)

/-- Model of `LogContainer.find_by(field_name, value, value_to=None)`.
`value` is converted first; `value_to` is converted only when truthy, else it
is REPLACED by the already-converted `value`; then the bucket lookup (a
`KeyError` on the `_buckets` dict, whose key set is the searchable names,
becomes the `ValueError` modelled by `Err.unknownField`); then the two
bisections and the slice. `self._entries[i]` is in range for every index the
invariant puts in a bucket; out-of-range (unreachable) defaults to `[]`.
The function reads but never mutates the container. -/
def LogContainer.find_by (reg : Registry) (c : LogContainer) (field_name : String)
    (value : Value) (value_to : Value := .vnone) : Except Err (List Entry) :=
  match marshall_value reg field_name value with
  | .error er => .error er
  | .ok v =>
    match (if truthy value_to then marshall_value reg field_name value_to
           else .ok v : Except Err Value) with
    | .error er => .error er
    | .ok vto =>
      if field_name ∈ c.searchable_fields then
        let bucket := c.buckets field_name
        let low := bisectLeft bucket (v, 0)
        let high := bisectRightLo bucket (vto, c.entries.length) low
        .ok (((bucket.drop low).take (high - low)).map (fun p => c.entries.getD p.2 []))
      else
        .error .unknownField

/-- The sort key `append` computes for `entry` on field `f`:
`getattr` then `_marshall_value`. -/
def entryKey (reg : Registry) (f : String) (e : Entry) : Except Err Value :=
  match getattr e f with
  | none => .error .missingField
  | some v => marshall_value reg f v

/-- The sort key when it exists (defaulting, never used under the invariant's
`entryKey … = .ok _` hypotheses). -/
def keyD (reg : Registry) (f : String) (e : Entry) : Value :=
  match entryKey reg f e with
  | .ok k => k
  | .error _ => .vnone

/-- The `(sort_key, position)` pairs of a list of entries, positions starting
at `i`: the exact multiset a searchable field's bucket holds. -/
def keyPairsAux (reg : Registry) (f : String) : Nat → List Entry → List (Value × Nat)
  | _, [] => []
  | i, e :: es => (keyD reg f e, i) :: keyPairsAux reg f (i + 1) es

/-- Containers reachable from construction by successful `append`s (the
converter registry held fixed across the container's lifetime). -/
inductive Reach (reg : Registry) : LogContainer → Prop
  | init (sf : List String) : Reach reg (mkLogContainer sf)
  | step {c : LogContainer} {e : Entry} {c' : LogContainer} :
      Reach reg c → LogContainer.append reg c e = (c', none) → Reach reg c'

theorem keyPairsAux_append (reg : Registry) (f : String) (i : Nat)
    (es : List Entry) (e : Entry) :
    keyPairsAux reg f i (es ++ [e]) =
      keyPairsAux reg f i es ++ [(keyD reg f e, i + es.length)] := by
  induction es generalizing i with
  | nil => simp [keyPairsAux]
  | cons a as ih =>
    have harith : i + (as.length + 1) = (i + 1) + as.length := by omega
    simp only [List.cons_append, keyPairsAux, List.length_cons, List.append_eq,
      ih, harith]

theorem mem_keyPairsAux {reg : Registry} {f : String} {i : Nat}
    {es : List Entry} {p : Value × Nat} :
    p ∈ keyPairsAux reg f i es ↔
      ∃ d, d < es.length ∧ p.2 = i + d ∧ p.1 = keyD reg f (es.getD d []) := by
  induction es generalizing i with
  | nil => simp [keyPairsAux]
  | cons a as ih =>
    simp only [keyPairsAux, List.mem_cons, ih]
    constructor
    · rintro (rfl | ⟨d, hd, hp2, hp1⟩)
      · exact ⟨0, by simp⟩
      · exact ⟨d + 1, by simpa using hd, by omega, by simpa using hp1⟩
    · rintro ⟨d, hd, hp2, hp1⟩
      cases d with
      | zero =>
        left
        obtain ⟨p1, p2⟩ := p
        simp only at hp1 hp2
        simp [hp1, hp2]
      | succ d' =>
        right
        refine ⟨d', ?_, by omega, by simpa using hp1⟩
        simp only [List.length_cons] at hd
        omega

/-- Characterization of a successful pass of the `append` field loop: every
field's key converts, and (for distinct field names) each searchable field's
bucket gets exactly its one `insort`. -/
theorem appendFields_ok (reg : Registry) (e : Entry) (idx : Nat) :
    ∀ (fields : List String) (bks : String → List (Value × Nat))
      (bks' : String → List (Value × Nat)),
      fields.Nodup →
      appendFields reg e idx fields bks = (bks', none) →
      (∀ f ∈ fields, entryKey reg f e = .ok (keyD reg f e)) ∧
      (∀ f ∈ fields, bks' f = insortRight (keyD reg f e, idx) (bks f)) ∧
      (∀ f, f ∉ fields → bks' f = bks f)
  | [], bks, bks', _, h => by
    simp only [appendFields, Prod.mk.injEq] at h
    refine ⟨by simp, by simp, fun f _ => by rw [← h.1]⟩
  | f0 :: fs, bks, bks', hnd, h => by
    rcases List.nodup_cons.mp hnd with ⟨hf0, hndfs⟩
    match hg : getattr e f0 with
    | none => simp [appendFields, hg] at h
    | some v =>
      match hm : marshall_value reg f0 v with
      | .error er => simp [appendFields, hg, hm] at h
      | .ok sv =>
        have hkey : entryKey reg f0 e = .ok sv := by
          simp [entryKey, hg, hm]
        have hkd : keyD reg f0 e = sv := by simp [keyD, hkey]
        simp only [appendFields, hg, hm] at h
        obtain ⟨ih1, ih2, ih3⟩ := appendFields_ok reg e idx fs _ bks' hndfs h
        refine ⟨?_, ?_, ?_⟩
        · intro f hf
          rcases List.mem_cons.mp hf with rfl | hf
          · exact hkd ▸ hkey
          · exact ih1 f hf
        · intro f hf
          rcases List.mem_cons.mp hf with rfl | hf
          · rw [ih3 f hf0, Function.update_same, hkd]
          · rw [ih2 f hf,
              Function.update_noteq (fun hh => hf0 (by rw [← hh]; exact hf))]
        · intro f hf
          rw [ih3 f (fun hh => hf (List.mem_cons_of_mem f0 hh)),
            Function.update_noteq
              (fun hh => hf (by rw [hh]; exact List.mem_cons_self f0 fs))]

/-- The bucket invariant for one searchable field: every stored entry's key
converts, the bucket holds exactly the `(sort_key, position)` pairs of the
entry sequence, and it is strictly sorted by `(sort_key, position)`. -/
def BucketGood (reg : Registry) (c : LogContainer) (f : String) : Prop :=
  (∀ e ∈ c.entries, entryKey reg f e = .ok (keyD reg f e)) ∧
  List.Perm (c.buckets f) (keyPairsAux reg f 0 c.entries) ∧
  List.Pairwise (fun a b => pltB a b = true) (c.buckets f)

/-- The container invariant: every searchable field's bucket is good. -/
def ContainerInv (reg : Registry) (c : LogContainer) : Prop :=
  ∀ f ∈ c.searchable_fields, BucketGood reg c f

/-- Every position a good bucket stores is a valid entry position. -/
theorem BucketGood.pos_lt {reg : Registry} {c : LogContainer} {f : String}
    (h : BucketGood reg c f) {p : Value × Nat} (hp : p ∈ c.buckets f) :
    p.2 < c.entries.length := by
  have := (h.2.1.mem_iff).mp hp
  obtain ⟨d, hd, hp2, _⟩ := mem_keyPairsAux.mp this
  omega

/-- The invariant holds for every container reachable by successful appends,
provided the searchable field names are distinct. -/
theorem reach_inv {reg : Registry} {c : LogContainer} (h : Reach reg c)
    (hnd : c.searchable_fields.Nodup) : ContainerInv reg c := by
  induction h with
  | init sf =>
    intro f _
    exact ⟨by simp [mkLogContainer], by simp [mkLogContainer, keyPairsAux], by
      simp [mkLogContainer]⟩
  | @step c0 e c' hr happ ih =>
    simp only [LogContainer.append, Prod.mk.injEq] at happ
    obtain ⟨hc', herr⟩ := happ
    subst hc'
    dsimp only at hnd ⊢
    have hinv0 : ContainerInv reg c0 := ih hnd
    obtain ⟨hk, hb, hfr⟩ := appendFields_ok reg e c0.entries.length
      c0.searchable_fields c0.buckets _ hnd (Prod.ext_iff.mpr ⟨rfl, herr⟩)
    intro f hf
    dsimp only at hf
    obtain ⟨g1, g2, g3⟩ := hinv0 f hf
    refine ⟨?_, ?_, ?_⟩
    · intro e' he'
      dsimp only at he'
      rcases List.mem_append.mp he' with he' | he'
      · exact g1 e' he'
      · rw [List.mem_singleton.mp he']
        exact hk f hf
    · dsimp only
      simp only [hb f hf, keyPairsAux_append]
      refine (insortRight_perm _ _).trans ?_
      simp only [Nat.zero_add]
      exact ((g2.cons _).trans (List.perm_append_singleton _ _).symm)
    · dsimp only
      simp only [hb f hf]
      refine insortRight_sorted g3 ?_
      intro y hy
      have hylt : y.2 < c0.entries.length := (hinv0 f hf).pos_lt hy
      exact pltB_connex (by simp; omega)

/-- On a sorted list, `takeWhile p` equals `filter p` when `p` is downward
closed along the order. -/
theorem takeWhile_eq_filter_sorted {α : Type} {r : α → α → Prop} {p : α → Bool}
    {l : List α} (hs : List.Pairwise r l)
    (hdc : ∀ x y, r x y → p y = true → p x = true) :
    l.takeWhile p = l.filter p := by
  induction l with
  | nil => rfl
  | cons a as ih =>
    rcases List.pairwise_cons.mp hs with ⟨ha, has⟩
    by_cases h : p a = true
    · simp [List.takeWhile_cons, List.filter_cons, h, ih has]
    · have hnil : as.filter p = [] := by
        rw [List.filter_eq_nil_iff]
        intro b hb
        cases hpb : p b
        · simp
        · exact absurd (hdc a b (ha b hb) hpb) h
      simp only [Bool.not_eq_true] at h
      simp [List.takeWhile_cons, List.filter_cons, h, hnil]

/-- On a sorted list, `dropWhile p` equals `filter (!p ·)` when `p` is
downward closed along the order. -/
theorem dropWhile_eq_filter_sorted {α : Type} {r : α → α → Prop} {p : α → Bool}
    {l : List α} (hs : List.Pairwise r l)
    (hdc : ∀ x y, r x y → p y = true → p x = true) :
    l.dropWhile p = l.filter (fun y => !p y) := by
  induction l with
  | nil => rfl
  | cons a as ih =>
    rcases List.pairwise_cons.mp hs with ⟨ha, has⟩
    by_cases h : p a = true
    · simp [List.dropWhile_cons, List.filter_cons, h, ih has]
    · have hall : as.filter (fun y => !p y) = as := by
        rw [List.filter_eq_self]
        intro b hb
        cases hpb : p b
        · simp
        · exact absurd (hdc a b (ha b hb) hpb) h
      simp only [Bool.not_eq_true] at h
      simp [List.dropWhile_cons, List.filter_cons, h, hall]

theorem drop_takeWhile_length {α : Type} (p : α → Bool) (l : List α) :
    l.drop (l.takeWhile p).length = l.dropWhile p := by
  induction l with
  | nil => rfl
  | cons a as ih =>
    by_cases h : p a = true <;>
      simp [List.takeWhile_cons, List.dropWhile_cons, h, ih]

/-- The slice `bucket[low:high]` that `find_by` extracts from a sorted bucket
is exactly the filter of the pairs between `(v1, 0)` (inclusive) and
`(v2, n)` (inclusive): the closed-interval semantics. Holds for every sorted
bucket, including when `v2 < v1` (both sides empty). -/
theorem slice_filter_of_sorted {b : List (Value × Nat)} (v1 v2 : Value) (n : Nat)
    (hs : List.Pairwise (fun x y => pltB x y = true) b) :
    ((b.drop (bisectLeft b (v1, 0))).take
        (bisectRightLo b (v2, n) (bisectLeft b (v1, 0)) - bisectLeft b (v1, 0))) =
      b.filter (fun y => !pltB y (v1, 0) && !pltB (v2, n) y) := by
  have hpdc : ∀ x y : Value × Nat, pltB x y = true →
      pltB y (v1, 0) = true → pltB x (v1, 0) = true :=
    fun x y hxy hy => pltB_trans hxy hy
  have hqdc : ∀ x y : Value × Nat, pltB x y = true →
      (!pltB (v2, n) y) = true → (!pltB (v2, n) x) = true := by
    intro x y hxy hy
    simp only [Bool.not_eq_true'] at hy ⊢
    cases hx : pltB (v2, n) x
    · rfl
    · exact absurd (pltB_trans hx hxy) (by simp [hy])
  have htp : b.takeWhile (fun y => pltB y (v1, 0)) =
      b.filter (fun y => pltB y (v1, 0)) :=
    takeWhile_eq_filter_sorted hs hpdc
  have htq : b.takeWhile (fun y => !pltB (v2, n) y) =
      b.filter (fun y => !pltB (v2, n) y) :=
    takeWhile_eq_filter_sorted hs hqdc
  cases hv : valLT v2 v1 with
  | true =>
    have hqp : ∀ y : Value × Nat, (!pltB (v2, n) y) = true →
        pltB y (v1, 0) = true := by
      intro y hy
      simp only [Bool.not_eq_true'] at hy
      have h1 : valLT v2 y.1 = false := by
        cases h : valLT v2 y.1
        · rfl
        · exact absurd hy (by simp [pltB, h])
      have h2 : valLT y.1 v1 = true := by
        cases h : valLT y.1 v1
        · cases hkv2 : valLT y.1 v2
          · have he : y.1 = v2 := valLT_connex hkv2 h1
            rw [he] at h
            exact absurd hv (by simp [h])
          · exact absurd (valLT_trans hkv2 hv) (by simp [h])
        · rfl
      simp [pltB, h2]
    have hnil : b.filter (fun y => !pltB y (v1, 0) && !pltB (v2, n) y) = [] := by
      rw [List.filter_eq_nil_iff]
      intro y _
      cases hq : (!pltB (v2, n) y)
      · simp [hq]
      · simp [hqp y hq]
    have hle : (b.takeWhile (fun y => !pltB (v2, n) y)).length ≤
        (b.takeWhile (fun y => pltB y (v1, 0))).length := by
      rw [htp, htq, ← List.countP_eq_length_filter, ← List.countP_eq_length_filter]
      exact List.countP_mono_left (fun y _ hy => hqp y hy)
    rw [hnil]
    simp only [bisectLeft, bisectRightLo]
    rw [Nat.max_eq_left hle]
    simp
  | false =>
    have hpq : ∀ y : Value × Nat, pltB y (v1, 0) = true →
        (!pltB (v2, n) y) = true := by
      intro y hy
      have hk : valLT y.1 v1 = true := by
        simp only [pltB, Bool.or_eq_true, Bool.and_eq_true, decide_eq_true_eq] at hy
        rcases hy with hy | ⟨_, hy⟩
        · exact hy
        · omega
      have h1 : valLT v2 y.1 = false := by
        cases h : valLT v2 y.1
        · rfl
        · exact absurd (valLT_trans h hk) (by simp [hv])
      have h2 : v2 ≠ y.1 := by
        intro he
        rw [he] at hv
        exact absurd hk (by simp [hv])
      simp [pltB, h1, h2]
    have hle : (b.takeWhile (fun y => pltB y (v1, 0))).length ≤
        (b.takeWhile (fun y => !pltB (v2, n) y)).length := by
      rw [htp, htq, ← List.countP_eq_length_filter, ← List.countP_eq_length_filter]
      exact List.countP_mono_left (fun y _ hy => hpq y hy)
    simp only [bisectLeft, bisectRightLo]
    rw [Nat.max_eq_right hle]
    have hsq : List.Pairwise (fun x y => pltB x y = true)
        (b.filter (fun y => !pltB (v2, n) y)) :=
      hs.sublist (List.filter_sublist b)
    have htp2 : (b.filter (fun y => !pltB (v2, n) y)).takeWhile
          (fun y => pltB y (v1, 0)) =
        (b.filter (fun y => !pltB (v2, n) y)).filter (fun y => pltB y (v1, 0)) :=
      takeWhile_eq_filter_sorted hsq hpdc
    have hff : (b.filter (fun y => !pltB (v2, n) y)).filter
          (fun y => pltB y (v1, 0)) =
        b.filter (fun y => pltB y (v1, 0)) := by
      rw [List.filter_filter]
      refine List.filter_congr ?_
      intro y _
      cases hy : pltB y (v1, 0)
      · simp
      · simp [hpq y hy]
    have hlen2 : ((b.filter (fun y => !pltB (v2, n) y)).takeWhile
        (fun y => pltB y (v1, 0))).length =
        (b.takeWhile (fun y => pltB y (v1, 0))).length := by
      rw [htp2, hff, htp]
    have h1 : (b.filter (fun y => !pltB (v2, n) y)).drop
          (b.takeWhile (fun y => pltB y (v1, 0))).length ++
          b.dropWhile (fun y => !pltB (v2, n) y) =
        b.drop (b.takeWhile (fun y => pltB y (v1, 0))).length := by
      rw [← htq, ← List.drop_append_of_le_length (htq ▸ hle),
        List.takeWhile_append_dropWhile]
    have h2 : (b.filter (fun y => !pltB (v2, n) y)).drop
          (b.takeWhile (fun y => pltB y (v1, 0))).length =
        b.filter (fun y => !pltB y (v1, 0) && !pltB (v2, n) y) := by
      rw [← hlen2, drop_takeWhile_length,
        dropWhile_eq_filter_sorted hsq hpdc, List.filter_filter]
    have hlen3 : ((b.filter (fun y => !pltB (v2, n) y)).drop
          (b.takeWhile (fun y => pltB y (v1, 0))).length).length =
        (b.takeWhile (fun y => !pltB (v2, n) y)).length -
          (b.takeWhile (fun y => pltB y (v1, 0))).length := by
      rw [List.length_drop, htq]
    rw [← h1, List.take_left' hlen3]
    exact h2

/-- Positions inside a `keyPairsAux` list are strictly increasing. -/
theorem keyPairsAux_pos_sorted (reg : Registry) (f : String) :
    ∀ (i : Nat) (es : List Entry),
      List.Pairwise (fun x y : Value × Nat => x.2 < y.2) (keyPairsAux reg f i es)
  | _, [] => List.Pairwise.nil
  | i, e :: es => by
    refine List.pairwise_cons.mpr ⟨?_, keyPairsAux_pos_sorted reg f (i + 1) es⟩
    intro p hp
    obtain ⟨d, _, hp2, _⟩ := mem_keyPairsAux.mp hp
    simp only
    omega

/-- Full characterization of a `find_by` call on a reachable container whose
value conversions succeed: the result is `Except.ok` of the image of a pair
list `ps` that is strictly sorted by `(sort key, insertion position)` and
holds exactly one pair per entry whose converted field value lies in the
closed interval from `v1` to `v2`. -/
theorem find_by_pairs {reg : Registry} {c : LogContainer} (hr : Reach reg c)
    (hnd : c.searchable_fields.Nodup) {field : String}
    (hf : field ∈ c.searchable_fields) {v vto : Value} {v1 v2 : Value}
    (hm1 : marshall_value reg field v = .ok v1)
    (hm2 : (if truthy vto then marshall_value reg field vto
            else .ok v1 : Except Err Value) = .ok v2) :
    ∃ ps : List (Value × Nat),
      LogContainer.find_by reg c field v vto =
        .ok (ps.map (fun p => c.entries.getD p.2 [])) ∧
      List.Pairwise (fun x y => pltB x y = true) ps ∧
      (∀ k i, (k, i) ∈ ps ↔ i < c.entries.length ∧
        entryKey reg field (c.entries.getD i []) = .ok k ∧
        ValLE v1 k ∧ ValLE k v2) := by
  obtain ⟨g1, g2, g3⟩ := reach_inv hr hnd field hf
  refine ⟨(c.buckets field).filter
      (fun y => !pltB y (v1, 0) && !pltB (v2, c.entries.length) y), ?_, ?_, ?_⟩
  · simp only [LogContainer.find_by, hm1, hm2, hf, if_true,
      slice_filter_of_sorted v1 v2 c.entries.length g3]
  · exact g3.sublist (List.filter_sublist _)
  · intro k i
    rw [List.mem_filter]
    constructor
    · rintro ⟨hmem, hpred⟩
      have hkp := g2.mem_iff.mp hmem
      obtain ⟨d, hd, hp2, hp1⟩ := mem_keyPairsAux.mp hkp
      simp only at hp1 hp2
      have hi : i < c.entries.length := by omega
      have hid : i = d := by omega
      subst hid
      have hget : c.entries.getD i [] ∈ c.entries := by
        rw [List.getD_eq_getElem c.entries [] hi]
        exact List.getElem_mem hi
      refine ⟨hi, ?_, ?_, ?_⟩
      · rw [g1 _ hget, hp1]
      · have := (Bool.and_eq_true _ _).mp hpred |>.1
        simp only [Bool.not_eq_true', pltB, Bool.or_eq_false_iff] at this
        exact this.1
      · have := (Bool.and_eq_true _ _).mp hpred |>.2
        simp only [Bool.not_eq_true', pltB, Bool.or_eq_false_iff] at this
        exact this.1
    · rintro ⟨hi, hkey, hle1, hle2⟩
      have hget : c.entries.getD i [] ∈ c.entries := by
        rw [List.getD_eq_getElem c.entries [] hi]
        exact List.getElem_mem hi
      have hkd : keyD reg field (c.entries.getD i []) = k := by
        unfold keyD
        rw [hkey]
      refine ⟨g2.mem_iff.mpr (mem_keyPairsAux.mpr ⟨i, hi, by omega, hkd.symm⟩), ?_⟩
      have h1 : pltB (k, i) (v1, 0) = false := by
        simp only [pltB, Bool.or_eq_false_iff, Bool.and_eq_false_iff]
        exact ⟨hle1, Or.inr (by simp)⟩
      have h2 : pltB (v2, c.entries.length) (k, i) = false := by
        simp only [pltB, Bool.or_eq_false_iff, Bool.and_eq_false_iff]
        refine ⟨hle2, Or.inr (by simp; omega)⟩
      simp [h1, h2]

/-- Mapping the key pairs with key `v1` back through the entry list yields the
filter of the entries on that key (positions resolve to the entries they
index). -/
theorem keyPairs_filter_map (reg : Registry) (field : String) (v1 : Value)
    (full : List Entry) :
    ∀ (es : List Entry) (i : Nat),
      (∀ d, d < es.length → full.getD (i + d) [] = es.getD d []) →
      ((keyPairsAux reg field i es).filter (fun y => decide (y.1 = v1))).map
          (fun p => full.getD p.2 []) =
        es.filter (fun e => decide (keyD reg field e = v1))
  | [], _, _ => rfl
  | e :: es, i, hcorr => by
    have h0 : full.getD i [] = e := by
      have h := hcorr 0 (by simp)
      simpa using h
    have hrest := keyPairs_filter_map reg field v1 full es (i + 1) (by
      intro d hd
      have h := hcorr (d + 1) (by simpa using Nat.succ_lt_succ hd)
      have harith : i + (d + 1) = (i + 1) + d := by omega
      rw [harith] at h
      simpa using h)
    have hcons : keyPairsAux reg field i (e :: es) =
        (keyD reg field e, i) :: keyPairsAux reg field (i + 1) es := rfl
    rw [hcons, List.filter_cons, List.filter_cons]
    by_cases hk : keyD reg field e = v1
    · rw [if_pos (by simp [hk]), if_pos (by simp [hk]), List.map_cons, h0, hrest]
    · rw [if_neg (by simp [hk]), if_neg (by simp [hk]), hrest]

/-- A point query `find_by field v` (no `value_to`) on a reachable container
returns exactly the filter of `entries`, in entry order, on the converted
field value being the converted `v`. -/
theorem find_by_point_eq {reg : Registry} {c : LogContainer} (hr : Reach reg c)
    (hnd : c.searchable_fields.Nodup) {field : String}
    (hf : field ∈ c.searchable_fields) {v v1 : Value}
    (hm1 : marshall_value reg field v = .ok v1) :
    LogContainer.find_by reg c field v .vnone =
      .ok (c.entries.filter (fun e => decide (entryKey reg field e = .ok v1))) := by
  obtain ⟨g1, g2, g3⟩ := reach_inv hr hnd field hf
  obtain ⟨ps, hps, hsort, hmem⟩ :=
    @find_by_pairs reg c hr hnd field hf v .vnone v1 v1 hm1 (by simp [truthy])
  have hpos : List.Pairwise (fun x y : Value × Nat => x.2 < y.2)
      ((keyPairsAux reg field 0 c.entries).filter (fun y => decide (y.1 = v1))) :=
    (keyPairsAux_pos_sorted reg field 0 c.entries).sublist (List.filter_sublist _)
  have hq_sort : List.Pairwise (fun x y => pltB x y = true)
      ((keyPairsAux reg field 0 c.entries).filter (fun y => decide (y.1 = v1))) := by
    refine hpos.imp_of_mem ?_
    intro a b ha hb hlt
    have ha1 : a.1 = v1 := by simpa using (List.mem_filter.mp ha).2
    have hb1 : b.1 = v1 := by simpa using (List.mem_filter.mp hb).2
    simp [pltB, ha1, hb1, hlt]
  have hnps : ps.Nodup := hsort.imp (fun {a b} h => by
    rintro rfl
    rw [pltB_irrefl a] at h
    cases h)
  have hnqs : ((keyPairsAux reg field 0 c.entries).filter
      (fun y => decide (y.1 = v1))).Nodup := hq_sort.imp (fun {a b} h => by
    rintro rfl
    rw [pltB_irrefl a] at h
    cases h)
  have hmm : ∀ p : Value × Nat, p ∈ ps ↔
      p ∈ (keyPairsAux reg field 0 c.entries).filter (fun y => decide (y.1 = v1)) := by
    rintro ⟨k, i⟩
    rw [hmem k i, List.mem_filter, mem_keyPairsAux]
    constructor
    · rintro ⟨hi, hkey, hle1, hle2⟩
      have hk : k = v1 := valLT_connex hle1 hle2
      have hkd : keyD reg field (c.entries.getD i []) = k := by
        unfold keyD
        rw [hkey]
      exact ⟨⟨i, hi, by omega, hkd.symm⟩, by simp [hk]⟩
    · rintro ⟨⟨d, hd, hp2, hp1⟩, hpk⟩
      simp only at hp1 hp2
      have hi : i = d := by omega
      subst hi
      have hget : c.entries.getD i [] ∈ c.entries := by
        rw [List.getD_eq_getElem c.entries [] (by omega)]
        exact List.getElem_mem (by omega)
      have hk : k = v1 := by simpa using hpk
      refine ⟨by omega, ?_, ?_, ?_⟩
      · rw [g1 _ hget, hp1]
      · show valLT k v1 = false
        rw [hk]
        exact valLT_irrefl v1
      · show valLT v1 k = false
        rw [hk]
        exact valLT_irrefl v1
  haveI : IsAntisymm (Value × Nat) (fun x y => pltB x y = true) := ⟨by
    intro a b h1 h2
    rw [pltB_asymm h2] at h1
    cases h1⟩
  have hperm : ps.Perm ((keyPairsAux reg field 0 c.entries).filter
      (fun y => decide (y.1 = v1))) :=
    (List.perm_ext_iff_of_nodup hnps hnqs).mpr hmm
  have hpq : ps = (keyPairsAux reg field 0 c.entries).filter
      (fun y => decide (y.1 = v1)) :=
    List.eq_of_perm_of_sorted hperm hsort hq_sort
  have hmap := keyPairs_filter_map reg field v1 c.entries c.entries 0
    (by intro d _; simp)
  have hfc : c.entries.filter (fun e => decide (keyD reg field e = v1)) =
      c.entries.filter (fun e => decide (entryKey reg field e = .ok v1)) := by
    refine List.filter_congr ?_
    intro e he
    refine decide_eq_decide.mpr ?_
    rw [g1 e he]
    simp
  rw [hps, hpq, hmap, hfc]

/-- Model of `CustomLog._loglevel_converter`: the three `==` comparisons (a
non-string value compares unequal to every token) and the final
`ValueError("Unknown loglevel")`. -/
def loglevel_converter (v : Value) : Except Err Value :=
  if v = .str "ERROR" then .ok (.int 2)
  else if v = .str "WARN" then .ok (.int 4)
  else if v = .str "DEBUG" then .ok (.int 8)
  else .error .unknownLoglevel

/-- Days from 1970-01-01 of a proleptic Gregorian civil date (the standard
era-based algorithm, used to evaluate timestamp differences concretely). -/
def daysFromCivil (y m d : Int) : Int :=
  let y2 := if m ≤ 2 then y - 1 else y
  let era := (if 0 ≤ y2 then y2 else y2 - 399) / 400
  let yoe := y2 - era * 400
  let mp := (m + 9) % 12
  let doy := (153 * mp + 2) / 5 + d - 1
  let doe := yoe * 365 + yoe / 4 - yoe / 100 + doy
  era * 146097 + doe - 719468

/-- Seconds from the epoch `datetime(1970, 1, 1)` to `dt`. -/
def toEpochSeconds (dt : PyDateTime) : Int :=
  daysFromCivil dt.year dt.month dt.day * 86400 +
    dt.hour * 3600 + dt.minute * 60 + dt.second

/-- Model of `CustomLog._datetime_converter`:
`(date - datetime(1970, 1, 1)).total_seconds()`, an integral number of seconds
at second resolution; subtracting from a non-datetime raises `TypeError`. -/
def datetime_converter (v : Value) : Except Err Value :=
  match v with
  | .date d => .ok (.int (toEpochSeconds d))
  | _ => .error .typeErr

/-- Model of `CustomLog._xid_converter`: `xid[4:]` (drop the fixed-length tag
and separator); slicing a non-string raises `TypeError`. -/
def xid_converter (v : Value) : Except Err Value :=
  match v with
  | .str s => .ok (.str (String.mk (s.data.drop 4)))
  | _ => .error .typeErr

/-- Model of the four assignments `self._converters[...] = ...` performed by
`CustomLog.__init__`. They mutate the CLASS-level `_converters` dict that
every `LogContainer` (and subclass) instance reads through `self._converters`,
so constructing a `CustomLog` maps the old shared registry to this one. -/
def customLogInitConverters (base : Registry) : Registry := fun f =>
  if f = "date" then some datetime_converter
  else if f = "loglevel" then some loglevel_converter
  else if f = "sessionid" then some xid_converter
  else if f = "businessid" then some xid_converter
  else base f

/-- The searchable fields `CustomLog.__init__` passes to the base constructor. -/
def customSearchable : List String := ["date", "loglevel", "sessionid", "businessid"]

/-- The shared registry once (at least one) `CustomLog` has been constructed,
starting from the pristine class attribute `_converters = { }`. -/
def customReg : Registry := customLogInitConverters (fun _ => none)

/-- The container state a fresh `CustomLog()` starts with. -/
def mkCustomLog : LogContainer := mkLogContainer customSearchable

/-- Model of the `CustomLog.LogEntry` namedtuple. -/
structure LogEntry where
  date : PyDateTime
  loglevel : String
  sessionid : String
  businessid : String
  requestid : String
  message : String
deriving DecidableEq, Repr

/-- The namedtuple's attributes as duck-typed `Entry` fields. -/
def LogEntry.toEntry (le : LogEntry) : Entry :=
  [("date", .date le.date), ("loglevel", .str le.loglevel),
   ("sessionid", .str le.sessionid), ("businessid", .str le.businessid),
   ("requestid", .str le.requestid), ("message", .str le.message)]

/-- The digit character for `d % 10`. -/
def digitChar (d : Nat) : Char := Char.ofNat (48 + d % 10)

/-- Two-digit zero-padded rendering of `n` (`%m`, `%d`, `%H`, `%M`, `%S`). -/
def pad2 (n : Nat) : List Char := [digitChar (n / 10), digitChar n]

/-- Four-digit zero-padded rendering of `n` (`%Y` per the documented format). -/
def pad4 (n : Nat) : List Char :=
  [digitChar (n / 1000), digitChar (n / 100), digitChar (n / 10), digitChar n]

/-- The zero-padded decimal rendering of the documented format — the
characters `strftime` produces when it does not raise. -/
def formatDT (d : PyDateTime) : String :=
  String.mk (pad4 d.year ++ '-' :: pad2 d.month ++ '-' :: pad2 d.day ++
    ' ' :: pad2 d.hour ++ ':' :: pad2 d.minute ++ ':' :: pad2 d.second)

/-- Model of `date.strftime(CustomLog.date_format)` with
`date_format = "%Y-%m-%d %H:%M:%S"`. Python 2's `datetime.strftime` raises
`ValueError` ("the datetime strftime() methods require year >= 1900") for
any year below 1900; otherwise it renders the zero-padded decimal fields. -/
def strftimeDT (d : PyDateTime) : Except Err String :=
  if d.year < 1900 then .error .badDate else .ok (formatDT d)

/-- Model of `CustomLog.LogEntry.__str__`: the space-join of the formatted
date and the five raw string fields; `strftime`'s `ValueError` for years
before 1900 propagates out of `__str__`. -/
def LogEntry.render (le : LogEntry) : Except Err String :=
  match strftimeDT le.date with
  | .error e => .error e
  | .ok d => .ok (d ++ " " ++ le.loglevel ++ " " ++ le.sessionid ++ " " ++
      le.businessid ++ " " ++ le.requestid ++ " " ++ le.message)

/-- The decimal value of a digit string (most significant first). -/
def natOfDigits (cs : List Char) : Nat :=
  cs.foldl (fun a c => a * 10 + (c.toNat - 48)) 0

/-- Exactly `n` characters satisfying `p`, then the rest (`\d{n}`). -/
def takeCount (p : Char → Bool) (n : Nat) (cs : List Char) :
    Option (List Char × List Char) :=
  if (cs.take n).length = n ∧ (cs.take n).all p then
    some (cs.take n, cs.drop n)
  else none

/-- One fixed character (a literal in the pattern). -/
def expectChar (c : Char) : List Char → Option (List Char)
  | x :: xs => if x = c then some xs else none
  | [] => none

/-- A fixed literal string in the pattern (e.g. `SID:`). -/
def expectLit : List Char → List Char → Option (List Char)
  | [], cs => some cs
  | l :: ls, cs =>
    match expectChar l cs with
    | none => none
    | some r => expectLit ls r

/-- A maximal nonempty run of `p`-characters, then the rest. This models the
regex pieces `\w+`, `\d+` and `[0-9a-f]+`: each is followed by a literal the
run's characters can never satisfy, so greedy matching without backtracking is
exact. -/
def takeRun (p : Char → Bool) (cs : List Char) : Option (List Char × List Char) :=
  if (cs.takeWhile p).isEmpty then none
  else some (cs.takeWhile p, cs.dropWhile p)

/-- Python 2 `\w` on byte strings: `[a-zA-Z0-9_]`. -/
def isWordChar (c : Char) : Bool := c.isAlphanum || c = '_'

/-- The character class `[0-9a-f]`. -/
def isHexLower (c : Char) : Bool := c.isDigit || ('a' ≤ c && c ≤ 'f')

/-- The regex's named groups, as captured. -/
structure EntryMatch where
  date : String
  loglevel : String
  sessionid : String
  businessid : String
  requestid : String
  message : String
deriving DecidableEq, Repr

/-- A fixed count of digits followed by a separator character
(the pieces `\d{4}-`, `\d{2}:` and the like). -/
def countSep (sep : Char) (n : Nat) (cs : List Char) :
    Option (List Char × List Char) :=
  match takeCount Char.isDigit n cs with
  | none => none
  | some (t, r) =>
    match expectChar sep r with
    | none => none
    | some r2 => some (t, r2)

/-- The timestamp piece `\d{4}-\d{2}-\d{2} \d{2}:\d{2}:\d{2}`: returns the
matched text and the rest. -/
def parseDateChars (cs : List Char) : Option (List Char × List Char) :=
  match countSep '-' 4 cs with
  | none => none
  | some (y, r1) =>
  match countSep '-' 2 r1 with
  | none => none
  | some (mo, r2) =>
  match countSep ' ' 2 r2 with
  | none => none
  | some (d, r3) =>
  match countSep ':' 2 r3 with
  | none => none
  | some (h, r4) =>
  match countSep ':' 2 r4 with
  | none => none
  | some (mi, r5) =>
  match takeCount Char.isDigit 2 r5 with
  | none => none
  | some (s, r6) =>
    some (y ++ '-' :: mo ++ '-' :: d ++ ' ' :: h ++ ':' :: mi ++ ':' :: s, r6)

/-- One tagged-id group plus its following literal space: the pieces
`SID:\d+ `, `BID:\d+ ` and `RID:[0-9a-f]+ `. The captured group is the tag
plus the run (the space is not part of the group). -/
def parseTag (tag : List Char) (p : Char → Bool) (cs : List Char) :
    Option (List Char × List Char) :=
  match expectLit tag cs with
  | none => none
  | some r =>
    match takeRun p r with
    | none => none
    | some (body, r2) =>
      match expectChar ' ' r2 with
      | none => none
      | some r3 => some (tag ++ body, r3)

/-- Model of `CustomLog._entry_re.match(line)` (`re.match` anchors at the
start only). The `message` group is `'.*`: `.` stops at a newline, and since
the pattern ends there, any unconsumed tail (necessarily starting with a
newline) does not affect the match. -/
def matchEntry (line : String) : Option EntryMatch :=
  match parseDateChars line.data with
  | none => none
  | some (dateCs, r0) =>
  match expectChar ' ' r0 with
  | none => none
  | some r1 =>
  match takeRun isWordChar r1 with
  | none => none
  | some (lvl, r2) =>
  match expectChar ' ' r2 with
  | none => none
  | some r3 =>
  match parseTag "SID:".data Char.isDigit r3 with
  | none => none
  | some (sid, r4) =>
  match parseTag "BID:".data Char.isDigit r4 with
  | none => none
  | some (bid, r5) =>
  match parseTag "RID:".data isHexLower r5 with
  | none => none
  | some (rid, r6) =>
  match expectChar '\'' r6 with
  | none => none
  | some r7 =>
    some ⟨String.mk dateCs, String.mk lvl, String.mk sid, String.mk bid,
          String.mk rid,
          String.mk ('\'' :: r7.takeWhile (fun ch => ch != '\n'))⟩

/-- Days per month of the Gregorian calendar (as validated by the `datetime`
constructor). -/
def daysInMonth (y m : Nat) : Nat :=
  if m = 2 then (if y % 4 = 0 ∧ (y % 100 ≠ 0 ∨ y % 400 = 0) then 29 else 28)
  else if m = 4 ∨ m = 6 ∨ m = 9 ∨ m = 11 then 30
  else 31

/-- The range checks `datetime.strptime` + the `datetime` constructor enforce
(`MINYEAR = 1`, calendar-valid day, `0 <= hour <= 23`, minutes and seconds
below 60). -/
def validDT (dt : PyDateTime) : Bool :=
  decide (1 ≤ dt.year ∧ dt.year ≤ 9999 ∧ 1 ≤ dt.month ∧ dt.month ≤ 12 ∧
    1 ≤ dt.day ∧ dt.day ≤ daysInMonth dt.year dt.month ∧
    dt.hour ≤ 23 ∧ dt.minute ≤ 59 ∧ dt.second ≤ 59)

/-- Model of `datetime.strptime(s, "%Y-%m-%d %H:%M:%S")`: the whole string
must match the format (no unconverted data may remain) and the fields must be
a valid datetime; `none` models the `ValueError`. -/
def strptimeDT (s : String) : Option PyDateTime :=
  match countSep '-' 4 s.data with
  | none => none
  | some (y, r1) =>
  match countSep '-' 2 r1 with
  | none => none
  | some (mo, r2) =>
  match countSep ' ' 2 r2 with
  | none => none
  | some (d, r3) =>
  match countSep ':' 2 r3 with
  | none => none
  | some (h, r4) =>
  match countSep ':' 2 r4 with
  | none => none
  | some (mi, r5) =>
  match takeCount Char.isDigit 2 r5 with
  | none => none
  | some (sec, r6) =>
    if r6 = [] then
      if validDT ⟨natOfDigits y, natOfDigits mo, natOfDigits d,
          natOfDigits h, natOfDigits mi, natOfDigits sec⟩ then
        some ⟨natOfDigits y, natOfDigits mo, natOfDigits d,
          natOfDigits h, natOfDigits mi, natOfDigits sec⟩
      else none
    else none

/-- Python 2 `str.rstrip()` whitespace. -/
def isPySpace (c : Char) : Bool :=
  c = ' ' || c = '\t' || c = '\n' || c = '\r' || c = '\x0b' || c = '\x0c'

/-- Model of `line.rstrip()`: drop trailing whitespace. -/
def rstrip (s : String) : String :=
  String.mk ((s.data.reverse.dropWhile isPySpace).reverse)

/-- Model of `s[-1] == c` for nonempty `s` (every use site guards emptiness). -/
def lastCharIs (s : String) (c : Char) : Bool := s.data.getLast? = some c

/-- One iteration of the `CustomLog.load` loop on one line. The state is the
container plus `entry_data` (`none` models the empty dict). A raised
exception is the second component; it leaves the state as mutated so far
(`entry_data` keeps the value it had when `append` raised; a `strptime`
failure happens during the dict construction, so the old `entry_data`
survives). -/
def loadStep (reg : Registry) (st : LogContainer × Option LogEntry)
    (line : String) : (LogContainer × Option LogEntry) × Option Err :=
  match matchEntry line with
  | some g =>
    match strptimeDT g.date with
    | none => (st, some .badDate)
    | some dt =>
      let ed : LogEntry := ⟨dt, g.loglevel, g.sessionid, g.businessid,
        g.requestid, g.message⟩
      if lastCharIs ed.message '\'' then
        match LogContainer.append reg st.1 ed.toEntry with
        | (c', none) => ((c', none), none)
        | (c', some er) => ((c', some ed), some er)
      else
        ((st.1, some { ed with message := ed.message ++ "\n" }), none)
  | none =>
    match st.2 with
    | some ed =>
      let stripped := rstrip line
      if stripped = "" ∨ ¬ lastCharIs stripped '\'' then
        ((st.1, some { ed with message := ed.message ++ line }), none)
      else
        let ed2 := { ed with message := ed.message ++ stripped }
        match LogContainer.append reg st.1 ed2.toEntry with
        | (c', none) => ((c', none), none)
        | (c', some er) => ((c', some ed2), some er)
    | none => ((st.1, none), none)

/-- The `for line in data` loop: fold `loadStep` until the lines end or an
exception aborts the loop. -/
def loadFold (reg : Registry) :
    List String → (LogContainer × Option LogEntry) →
    (LogContainer × Option LogEntry) × Option Err
  | [], st => (st, none)
  | l :: ls, st =>
    match loadStep reg st l with
    | (st', none) => loadFold reg ls st'
    | (st', some er) => (st', some er)

/-- Model of `CustomLog.load(data)`: run the loop from an empty `entry_data`;
at end of input a pending `entry_data` goes out of scope without being
appended. Returns the container as mutated plus the exception, if one was
raised. -/
def load (reg : Registry) (c : LogContainer) (lines : List String) :
    LogContainer × Option Err :=
  let r := loadFold reg lines (c, none)
  (r.1.1, r.2)

theorem digit_bounds {c : Char} (h : c.isDigit = true) :
    48 ≤ c.toNat ∧ c.toNat ≤ 57 := by
  simp [Char.isDigit] at h
  exact h

theorem digitChar_toNat {c : Char} (h : c.isDigit = true) :
    digitChar (c.toNat - 48) = c := by
  obtain ⟨h1, h2⟩ := digit_bounds h
  have h10 : 48 + (c.toNat - 48) % 10 = c.toNat := by omega
  rw [digitChar, h10, Char.ofNat_toNat]

theorem pad2_roundtrip : ∀ {t : List Char}, t.length = 2 →
    t.all Char.isDigit = true → pad2 (natOfDigits t) = t
  | [a, b], _, hdig => by
    simp only [List.all_cons, List.all_nil, Bool.and_eq_true] at hdig
    obtain ⟨ha, hb, -⟩ := hdig
    obtain ⟨ha1, ha2⟩ := digit_bounds ha
    obtain ⟨hb1, hb2⟩ := digit_bounds hb
    have hN : natOfDigits [a, b] = (a.toNat - 48) * 10 + (b.toNat - 48) := by
      simp [natOfDigits, List.foldl]
    have h1 : natOfDigits [a, b] / 10 % 10 = a.toNat - 48 := by rw [hN]; omega
    have h2 : natOfDigits [a, b] % 10 = b.toNat - 48 := by rw [hN]; omega
    simp only [pad2, digitChar, h1, h2]
    have ha3 : 48 + (a.toNat - 48) = a.toNat := by omega
    have hb3 : 48 + (b.toNat - 48) = b.toNat := by omega
    rw [ha3, hb3, Char.ofNat_toNat, Char.ofNat_toNat]

theorem pad4_roundtrip : ∀ {t : List Char}, t.length = 4 →
    t.all Char.isDigit = true → pad4 (natOfDigits t) = t
  | [a, b, c, d], _, hdig => by
    simp only [List.all_cons, List.all_nil, Bool.and_eq_true] at hdig
    obtain ⟨ha, hb, hc, hd, -⟩ := hdig
    obtain ⟨ha1, ha2⟩ := digit_bounds ha
    obtain ⟨hb1, hb2⟩ := digit_bounds hb
    obtain ⟨hc1, hc2⟩ := digit_bounds hc
    obtain ⟨hd1, hd2⟩ := digit_bounds hd
    have hN : natOfDigits [a, b, c, d] = (a.toNat - 48) * 1000 +
        (b.toNat - 48) * 100 + (c.toNat - 48) * 10 + (d.toNat - 48) := by
      simp [natOfDigits, List.foldl]
      omega
    have h1 : natOfDigits [a, b, c, d] / 1000 % 10 = a.toNat - 48 := by rw [hN]; omega
    have h2 : natOfDigits [a, b, c, d] / 100 % 10 = b.toNat - 48 := by rw [hN]; omega
    have h3 : natOfDigits [a, b, c, d] / 10 % 10 = c.toNat - 48 := by rw [hN]; omega
    have h4 : natOfDigits [a, b, c, d] % 10 = d.toNat - 48 := by rw [hN]; omega
    simp only [pad4, digitChar, h1, h2, h3, h4]
    have ha3 : 48 + (a.toNat - 48) = a.toNat := by omega
    have hb3 : 48 + (b.toNat - 48) = b.toNat := by omega
    have hc3 : 48 + (c.toNat - 48) = c.toNat := by omega
    have hd3 : 48 + (d.toNat - 48) = d.toNat := by omega
    rw [ha3, hb3, hc3, hd3, Char.ofNat_toNat, Char.ofNat_toNat,
      Char.ofNat_toNat, Char.ofNat_toNat]

theorem takeCount_decomp {p : Char → Bool} {n : Nat} {cs t r : List Char}
    (h : takeCount p n cs = some (t, r)) :
    cs = t ++ r ∧ t.length = n ∧ t.all p = true := by
  unfold takeCount at h
  split at h
  · rename_i hcond
    cases h
    exact ⟨(List.take_append_drop n cs).symm, hcond.1, hcond.2⟩
  · cases h

theorem expectChar_decomp {c : Char} {cs r : List Char}
    (h : expectChar c cs = some r) : cs = c :: r := by
  cases cs with
  | nil => exact absurd h (by simp [expectChar])
  | cons x xs =>
    by_cases hx : x = c
    · subst hx
      simp [expectChar] at h
      rw [h]
    · simp [expectChar, hx] at h

theorem expectLit_decomp : ∀ {lit cs r : List Char},
    expectLit lit cs = some r → cs = lit ++ r
  | [], cs, r, h => by
    cases h
    rfl
  | l :: ls, cs, r, h => by
    unfold expectLit at h
    split at h
    · cases h
    · rename_i r1 h1
      rw [expectChar_decomp h1, expectLit_decomp h]
      rfl

theorem takeRun_decomp {p : Char → Bool} {cs t r : List Char}
    (h : takeRun p cs = some (t, r)) : cs = t ++ r := by
  unfold takeRun at h
  split at h
  · cases h
  · cases h
    exact (List.takeWhile_append_dropWhile p cs).symm

theorem countSep_decomp {sep : Char} {n : Nat} {cs t r : List Char}
    (h : countSep sep n cs = some (t, r)) :
    cs = t ++ sep :: r ∧ t.length = n ∧ t.all Char.isDigit = true := by
  unfold countSep at h
  split at h
  · cases h
  · rename_i t1 r1 h1
    split at h
    · cases h
    · rename_i r2 h2
      cases h
      obtain ⟨hc, hl, ha⟩ := takeCount_decomp h1
      exact ⟨by rw [hc, expectChar_decomp h2], hl, ha⟩

theorem parseTag_decomp {tag : List Char} {p : Char → Bool} {cs g r : List Char}
    (h : parseTag tag p cs = some (g, r)) : cs = g ++ ' ' :: r := by
  unfold parseTag at h
  split at h
  · cases h
  · rename_i r1 h1
    split at h
    · cases h
    · rename_i body r2 h2
      split at h
      · cases h
      · rename_i r3 h3
        cases h
        rw [expectLit_decomp h1, takeRun_decomp h2, expectChar_decomp h3,
          List.append_assoc]

theorem parseDateChars_decomp {cs ds r : List Char}
    (h : parseDateChars cs = some (ds, r)) : cs = ds ++ r := by
  unfold parseDateChars at h
  split at h
  · cases h
  · rename_i y r1 h1
    split at h
    · cases h
    · rename_i mo r2 h2
      split at h
      · cases h
      · rename_i d r3 h3
        split at h
        · cases h
        · rename_i hh r4 h4
          split at h
          · cases h
          · rename_i mi r5 h5
            split at h
            · cases h
            · rename_i s r6 h6
              cases h
              obtain ⟨e1, -, -⟩ := countSep_decomp h1
              obtain ⟨e2, -, -⟩ := countSep_decomp h2
              obtain ⟨e3, -, -⟩ := countSep_decomp h3
              obtain ⟨e4, -, -⟩ := countSep_decomp h4
              obtain ⟨e5, -, -⟩ := countSep_decomp h5
              obtain ⟨e6, -, -⟩ := takeCount_decomp h6
              rw [e1, e2, e3, e4, e5, e6]
              simp

theorem dropWhile_head_false {p : Char → Bool} :
    ∀ {l : List Char} {x : Char} {xs : List Char},
      l.dropWhile p = x :: xs → p x = false := by
  intro l
  induction l with
  | nil => intro x xs h; cases h
  | cons a as ih =>
    intro x xs h
    rw [List.dropWhile_cons] at h
    split at h
    · exact ih h
    · rename_i hpa
      cases h
      simpa using hpa

/-- Decomposition of a successful regex match: the line is the six captured
groups joined by single spaces, followed by an unconsumed rest that is empty
or contains the newline the `.*` stopped at. -/
theorem matchEntry_decomp {line : String} {g : EntryMatch}
    (h : matchEntry line = some g) :
    ∃ rest : List Char,
      line.data = g.date.data ++ ' ' :: g.loglevel.data ++ ' ' ::
        g.sessionid.data ++ ' ' :: g.businessid.data ++ ' ' ::
        g.requestid.data ++ ' ' :: g.message.data ++ rest ∧
      (rest = [] ∨ '\n' ∈ rest) := by
  unfold matchEntry at h
  split at h
  · cases h
  rename_i dateCs r0 h1
  split at h
  · cases h
  rename_i r1 h2
  split at h
  · cases h
  rename_i lvl r2 h3
  split at h
  · cases h
  rename_i r3 h4
  split at h
  · cases h
  rename_i sid r4 h5
  split at h
  · cases h
  rename_i bid r5 h6
  split at h
  · cases h
  rename_i rid r6 h7
  split at h
  · cases h
  rename_i r7 h8
  cases h
  refine ⟨r7.dropWhile (fun ch => ch != '\n'), ?_, ?_⟩
  · have hr7 : r7 = r7.takeWhile (fun ch => ch != '\n') ++
        r7.dropWhile (fun ch => ch != '\n') :=
      (List.takeWhile_append_dropWhile _ r7).symm
    rw [parseDateChars_decomp h1, expectChar_decomp h2, takeRun_decomp h3,
      expectChar_decomp h4, parseTag_decomp h5, parseTag_decomp h6,
      parseTag_decomp h7, expectChar_decomp h8]
    conv_lhs => rw [hr7]
    simp [List.append_assoc]
  · rcases hdw : r7.dropWhile (fun ch => ch != '\n') with - | ⟨x, xs⟩
    · exact Or.inl rfl
    · refine Or.inr ?_
      have hx : (x != '\n') = false :=
        dropWhile_head_false (p := fun ch => ch != '\n') hdw
      have : x = '\n' := by simpa using hx
      rw [this]
      exact List.mem_cons_self '\n' xs

/-- Rendering a parsed timestamp in the documented format reproduces the
original string: `strptime` accepts exactly the zero-padded format, and
zero-padded rendering of the parsed digit values restores each digit
group. -/
theorem strftime_strptime {s : String} {dt : PyDateTime}
    (h : strptimeDT s = some dt) : formatDT dt = s := by
  unfold strptimeDT at h
  split at h
  · cases h
  rename_i y r1 h1
  split at h
  · cases h
  rename_i mo r2 h2
  split at h
  · cases h
  rename_i d r3 h3
  split at h
  · cases h
  rename_i hr r4 h4
  split at h
  · cases h
  rename_i mi r5 h5
  split at h
  · cases h
  rename_i sec r6 h6
  split at h
  · rename_i hr6
    split at h
    · cases h
      obtain ⟨e1, l1, a1⟩ := countSep_decomp h1
      obtain ⟨e2, l2, a2⟩ := countSep_decomp h2
      obtain ⟨e3, l3, a3⟩ := countSep_decomp h3
      obtain ⟨e4, l4, a4⟩ := countSep_decomp h4
      obtain ⟨e5, l5, a5⟩ := countSep_decomp h5
      obtain ⟨e6, l6, a6⟩ := takeCount_decomp h6
      refine String.ext ?_
      show pad4 (natOfDigits y) ++ '-' :: pad2 (natOfDigits mo) ++
        '-' :: pad2 (natOfDigits d) ++ ' ' :: pad2 (natOfDigits hr) ++
        ':' :: pad2 (natOfDigits mi) ++ ':' :: pad2 (natOfDigits sec) = s.data
      rw [pad4_roundtrip l1 a1, pad2_roundtrip l2 a2, pad2_roundtrip l3 a3,
        pad2_roundtrip l4 a4, pad2_roundtrip l5 a5, pad2_roundtrip l6 a6,
        e1, e2, e3, e4, e5, e6, hr6]
      simp
    · cases h
  · cases h

/-- The `append` field loop when one field's attribute is missing: the loop
raises at that field, the buckets of the (distinct) fields before it keep
their insertion, and every other bucket is untouched. -/
theorem appendFields_err (reg : Registry) (e : Entry) (idx : Nat) :
    ∀ (pre post : List String) (fbad : String)
      (bks : String → List (Value × Nat)),
      (pre ++ fbad :: post).Nodup →
      (∀ f ∈ pre, ∃ k, entryKey reg f e = .ok k) →
      getattr e fbad = none →
      (appendFields reg e idx (pre ++ fbad :: post) bks).2 = some .missingField ∧
      (∀ f ∈ pre, ∃ k, entryKey reg f e = .ok k ∧
        (appendFields reg e idx (pre ++ fbad :: post) bks).1 f =
          insortRight (k, idx) (bks f)) ∧
      (∀ f, f ∉ pre → (appendFields reg e idx (pre ++ fbad :: post) bks).1 f = bks f)
  | [], _, fbad, bks, _, _, hbad => by
    refine ⟨?_, ?_, ?_⟩
    · simp only [List.nil_append, appendFields, hbad]
    · intro f hf
      exact absurd hf (List.not_mem_nil f)
    · intro f _
      simp only [List.nil_append, appendFields, hbad]
  | f0 :: pre, post, fbad, bks, hnd, hpre, hbad => by
    obtain ⟨k0, hk0⟩ := hpre f0 (List.mem_cons_self f0 pre)
    have hnd2 : f0 ∉ (pre ++ fbad :: post) ∧ (pre ++ fbad :: post).Nodup :=
      List.nodup_cons.mp (by rw [List.cons_append] at hnd; exact hnd)
    have hf0pre : f0 ∉ pre :=
      fun hmem => hnd2.1 (List.mem_append.mpr (Or.inl hmem))
    match hg : getattr e f0 with
    | none =>
      exfalso
      simp only [entryKey, hg] at hk0
      exact Except.noConfusion hk0
    | some v =>
      match hm : marshall_value reg f0 v with
      | .error er =>
        exfalso
        simp only [entryKey, hg, hm] at hk0
        exact Except.noConfusion hk0
      | .ok sv =>
        have hk0sv : entryKey reg f0 e = .ok sv := by
          simp only [entryKey, hg, hm]
        have hstep : appendFields reg e idx ((f0 :: pre) ++ fbad :: post) bks =
            appendFields reg e idx (pre ++ fbad :: post)
              (Function.update bks f0 (insortRight (sv, idx) (bks f0))) := by
          simp only [List.cons_append, appendFields, hg, hm, List.append_eq]
        obtain ⟨ih1, ih2, ih3⟩ := appendFields_err reg e idx pre post fbad
          (Function.update bks f0 (insortRight (sv, idx) (bks f0)))
          hnd2.2 (fun f hf => hpre f (List.mem_cons_of_mem f0 hf)) hbad
        refine ⟨by rw [hstep]; exact ih1, ?_, ?_⟩
        · intro f hf
          rcases List.mem_cons.mp hf with rfl | hf
          · refine ⟨sv, hk0sv, ?_⟩
            rw [hstep, ih3 f hf0pre, Function.update_same]
          · obtain ⟨k, hk, hbk⟩ := ih2 f hf
            refine ⟨k, hk, ?_⟩
            rw [hstep, hbk,
              Function.update_noteq (fun hh => hf0pre (by rw [← hh]; exact hf))]
        · intro f hf
          rw [hstep, ih3 f (fun hh => hf (List.mem_cons_of_mem f0 hh)),
            Function.update_noteq
              (fun hh => hf (by rw [hh]; exact List.mem_cons_self f0 pre))]

/-- Claim C1, counterexample. `LogContainer(['a','b'])` and an entry that has
field `a` only: `append` raises the missing-field `ValueError`, but the entry
HAS been appended (`entries` length goes from 0 to 1) and field `a`'s index
holds a pair for it — the container is not left unmodified and the index
insertions are partially committed. -/
theorem C1_counterexample :
    (LogContainer.append (fun _ => none) (mkLogContainer ["a", "b"])
        [("a", Value.int 1)]).2 = some Err.missingField ∧
    (mkLogContainer ["a", "b"]).entries.length = 0 ∧
    (LogContainer.append (fun _ => none) (mkLogContainer ["a", "b"])
        [("a", Value.int 1)]).1.entries.length = 1 ∧
    (LogContainer.append (fun _ => none) (mkLogContainer ["a", "b"])
        [("a", Value.int 1)]).1.buckets "a" = [(Value.int 1, 0)] := by
  refine ⟨by decide, by decide, by decide, by decide⟩

/-- Claim C1, amended: when a record lacks a searchable field, `append`
raises the missing-field `ValueError`, but the record has already been
appended to `entries` (its length grows by one) and, for distinct searchable
field names, the index insertion of every field processed before the missing
one remains committed; buckets of the remaining fields are untouched. -/
theorem C1_amended (reg : Registry) (c : LogContainer) (e : Entry)
    (pre post : List String) (fbad : String)
    (hsf : c.searchable_fields = pre ++ fbad :: post)
    (hnd : c.searchable_fields.Nodup)
    (hpre : ∀ f ∈ pre, ∃ k, entryKey reg f e = .ok k)
    (hbad : getattr e fbad = none) :
    (LogContainer.append reg c e).2 = some Err.missingField ∧
    (LogContainer.append reg c e).1.entries = c.entries ++ [e] ∧
    (∀ f ∈ pre, ∃ k, entryKey reg f e = .ok k ∧
      (LogContainer.append reg c e).1.buckets f =
        insortRight (k, c.entries.length) (c.buckets f)) ∧
    (∀ f, f ∉ pre → (LogContainer.append reg c e).1.buckets f = c.buckets f) := by
  obtain ⟨h1, h2, h3⟩ := appendFields_err reg e c.entries.length pre post fbad
    c.buckets (hsf ▸ hnd) hpre hbad
  refine ⟨?_, rfl, ?_, ?_⟩
  · simp only [LogContainer.append, hsf]
    exact h1
  · intro f hf
    obtain ⟨k, hk, hbk⟩ := h2 f hf
    exact ⟨k, hk, by simp only [LogContainer.append, hsf]; exact hbk⟩
  · intro f hf
    simp only [LogContainer.append, hsf]
    exact h3 f hf

/-- Witness for C1's amended theorem at the counterexample input. -/
theorem C1_witness :
    (LogContainer.append (fun _ => none) (mkLogContainer ["a", "b"])
        [("a", Value.int 1)]).2 = some Err.missingField ∧
    (LogContainer.append (fun _ => none) (mkLogContainer ["a", "b"])
        [("a", Value.int 1)]).1.entries =
      (mkLogContainer ["a", "b"]).entries ++ ([[("a", Value.int 1)]] : List Entry) ∧
    (∀ f ∈ ["a"], ∃ k, entryKey (fun _ => none) f [("a", Value.int 1)] = .ok k ∧
      (LogContainer.append (fun _ => none) (mkLogContainer ["a", "b"])
          [("a", Value.int 1)]).1.buckets f =
        insortRight (k, (mkLogContainer ["a", "b"]).entries.length)
          ((mkLogContainer ["a", "b"]).buckets f)) ∧
    (∀ f, f ∉ ["a"] →
      (LogContainer.append (fun _ => none) (mkLogContainer ["a", "b"])
          [("a", Value.int 1)]).1.buckets f =
        (mkLogContainer ["a", "b"]).buckets f) :=
  C1_amended (fun _ => none) (mkLogContainer ["a", "b"]) [("a", Value.int 1)]
    ["a"] [] "b" rfl (by decide)
    (by
      intro f hf
      rcases List.mem_singleton.mp hf with rfl
      exact ⟨Value.int 1, by decide⟩)
    (by decide)

/-- Claim C2: the converter registry is NOT fixed at container construction.
`_converters` is a class attribute shared by every container; constructing a
`CustomLog` (modelled by `customLogInitConverters`) mutates it, and an
already-constructed plain `LogContainer(['loglevel'])` afterwards applies the
newly registered loglevel converter in `find_by`: the identical query that
returned `[]` before now raises `ValueError("Unknown loglevel")`. -/
theorem C2_registry_mutation :
    LogContainer.find_by (fun _ => none) (mkLogContainer ["loglevel"])
        "loglevel" (Value.str "XYZ") Value.vnone = .ok [] ∧
    LogContainer.find_by (customLogInitConverters (fun _ => none))
        (mkLogContainer ["loglevel"])
        "loglevel" (Value.str "XYZ") Value.vnone =
      .error Err.unknownLoglevel := by
  refine ⟨by decide, by decide⟩

/-- The empty registry (a world where no `CustomLog` has been constructed). -/
def regId : Registry := fun _ => none

/-- A concrete reachable container for witnesses: `LogContainer(['a'])` after
appending entries with `a = -5` and `a = -2`. -/
def wC2 : LogContainer :=
  (LogContainer.append regId
    ((LogContainer.append regId (mkLogContainer ["a"])
      [("a", Value.int (-5))]).1)
    [("a", Value.int (-2))]).1

theorem wC2_reach : Reach regId wC2 :=
  Reach.step
    (Reach.step (Reach.init ["a"]) (Prod.ext_iff.mpr ⟨rfl, by decide⟩))
    (Prod.ext_iff.mpr ⟨rfl, by decide⟩)

/-- Claim C3, counterexample. Two failures of the claim as stated:
(1) `find_by('a', -5, 0)` on a container holding entries with converted
values `-5` and `-2`: both lie in the closed range `[-5, 0]`, but `0` is
falsy, so the call silently degenerates to the point query and returns only
the `-5` entry — and likewise a reversed range with falsy upper bound is not
empty; (2) with a duplicated searchable name (`LogContainer(['a','a'])`) a
point query returns the same record twice, so the result is not a duplicate-
free subsequence of `entries`. -/
theorem C3_counterexample :
    LogContainer.find_by regId wC2 "a" (Value.int (-5)) (Value.int 0) =
      .ok [[("a", Value.int (-5))]] ∧
    ValLE (Value.int (-5)) (Value.int (-2)) ∧
    ValLE (Value.int (-2)) (Value.int 0) ∧
    [("a", Value.int (-2))] ∈ wC2.entries ∧
    LogContainer.find_by regId
      ((LogContainer.append regId (mkLogContainer ["a", "a"])
        [("a", Value.int 1)]).1)
      "a" (Value.int 1) Value.vnone =
        .ok [[("a", Value.int 1)], [("a", Value.int 1)]] := by
  refine ⟨by decide, by decide, by decide, by decide, by decide⟩

/-- Claim C3, amended: on a reachable container with distinct searchable
field names and a TRUTHY `value_to`, `find_by` returns exactly the records
whose converted field value lies in the closed interval, ordered by sort key
then insertion position; with converted `value_to` strictly below converted
`value` (still truthy) the result is empty; and the point query returns
exactly the filter of `entries`, in entry order, on the converted field
value. -/
theorem C3_amended :
    (∀ (reg : Registry) (c : LogContainer), Reach reg c →
      c.searchable_fields.Nodup → ∀ field ∈ c.searchable_fields,
      ∀ lo hi v1 v2, marshall_value reg field lo = .ok v1 →
        truthy hi = true → marshall_value reg field hi = .ok v2 →
        ∃ ps : List (Value × Nat),
          LogContainer.find_by reg c field lo hi =
            .ok (ps.map (fun p => c.entries.getD p.2 [])) ∧
          List.Pairwise (fun x y => pltB x y = true) ps ∧
          (∀ k i, (k, i) ∈ ps ↔ i < c.entries.length ∧
            entryKey reg field (c.entries.getD i []) = .ok k ∧
            ValLE v1 k ∧ ValLE k v2)) ∧
    (∀ (reg : Registry) (c : LogContainer), Reach reg c →
      c.searchable_fields.Nodup → ∀ field ∈ c.searchable_fields,
      ∀ lo hi v1 v2, marshall_value reg field lo = .ok v1 →
        truthy hi = true → marshall_value reg field hi = .ok v2 →
        valLT v2 v1 = true →
        LogContainer.find_by reg c field lo hi = .ok []) ∧
    (∀ (reg : Registry) (c : LogContainer), Reach reg c →
      c.searchable_fields.Nodup → ∀ field ∈ c.searchable_fields,
      ∀ v v1, marshall_value reg field v = .ok v1 →
        LogContainer.find_by reg c field v .vnone =
          .ok (c.entries.filter
            (fun e => decide (entryKey reg field e = .ok v1)))) := by
  refine ⟨?_, ?_, ?_⟩
  · intro reg c hr hnd field hf lo hi v1 v2 hm1 ht hm2
    exact find_by_pairs hr hnd hf hm1 (by rw [if_pos ht]; exact hm2)
  · intro reg c hr hnd field hf lo hi v1 v2 hm1 ht hm2 hv
    obtain ⟨ps, hps, hsort, hmem⟩ :=
      find_by_pairs hr hnd hf hm1 (by rw [if_pos ht]; exact hm2)
    have hnil : ps = [] := by
      rw [List.eq_nil_iff_forall_not_mem]
      rintro ⟨k, i⟩ hm
      obtain ⟨-, -, hle1, hle2⟩ := (hmem k i).mp hm
      have h1 : valLT k v1 = false := hle1
      have h2 : valLT v2 k = false := hle2
      cases hvk : valLT v1 k with
      | false =>
        have hkv1 : k = v1 := valLT_connex h1 hvk
        rw [hkv1] at h2
        rw [h2] at hv
        cases hv
      | true =>
        have h3 := valLT_trans hv hvk
        rw [h2] at h3
        cases h3
    rw [hnil] at hps
    simpa using hps
  · intro reg c hr hnd field hf v v1 hm1
    exact find_by_point_eq hr hnd hf hm1

/-- Witness for C3's amended theorem on the concrete two-entry container. -/
theorem C3_witness :
    (∃ ps : List (Value × Nat),
      LogContainer.find_by regId wC2 "a" (Value.int (-5)) (Value.int 3) =
        .ok (ps.map (fun p => wC2.entries.getD p.2 [])) ∧
      List.Pairwise (fun x y => pltB x y = true) ps ∧
      (∀ k i, (k, i) ∈ ps ↔ i < wC2.entries.length ∧
        entryKey regId "a" (wC2.entries.getD i []) = .ok k ∧
        ValLE (Value.int (-5)) k ∧ ValLE k (Value.int 3))) ∧
    LogContainer.find_by regId wC2 "a" (Value.int 3) (Value.int (-5)) =
      .ok [] ∧
    LogContainer.find_by regId wC2 "a" (Value.int (-2)) Value.vnone =
      .ok (wC2.entries.filter
        (fun e => decide (entryKey regId "a" e = .ok (Value.int (-2))))) :=
  ⟨C3_amended.1 regId wC2 wC2_reach (by decide) "a" (by decide)
      (Value.int (-5)) (Value.int 3) (Value.int (-5)) (Value.int 3)
      (by decide) (by decide) (by decide),
    C3_amended.2.1 regId wC2 wC2_reach (by decide) "a" (by decide)
      (Value.int 3) (Value.int (-5)) (Value.int 3) (Value.int (-5))
      (by decide) (by decide) (by decide) (by decide),
    C3_amended.2.2 regId wC2 wC2_reach (by decide) "a" (by decide)
      (Value.int (-2)) (Value.int (-2)) (by decide)⟩

/-- Count of pairs with a given position in a `keyPairsAux` list: exactly one
for positions in range, none otherwise. -/
theorem keyPairsAux_countP (reg : Registry) (f : String) :
    ∀ (es : List Entry) (j i : Nat),
      (keyPairsAux reg f j es).countP (fun p => decide (p.2 = i)) =
        if j ≤ i ∧ i < j + es.length then 1 else 0
  | [], j, i => by
    simp only [keyPairsAux, List.countP_nil, List.length_nil]
    split
    · rename_i hcond
      omega
    · rfl
  | e :: es, j, i => by
    simp only [keyPairsAux, List.countP_cons, List.length_cons,
      keyPairsAux_countP reg f es (j + 1) i, decide_eq_true_eq]
    split <;> split <;> split <;> omega

/-- Claim C4, counterexample. `LogContainer(['a','a'])` (duplicates are
claimed harmless by the specification): after one successful append of one
record, the field's index holds TWO `(sort_key, position)` pairs for that
record, not exactly one. -/
theorem C4_counterexample :
    (LogContainer.append regId (mkLogContainer ["a", "a"])
        [("a", Value.int 1)]).2 = none ∧
    (LogContainer.append regId (mkLogContainer ["a", "a"])
        [("a", Value.int 1)]).1.entries.length = 1 ∧
    ((LogContainer.append regId (mkLogContainer ["a", "a"])
        [("a", Value.int 1)]).1.buckets "a").countP
      (fun p => decide (p.2 = 0)) = 2 := by
  refine ⟨by decide, by decide, by decide⟩

/-- Claim C4, amended: after any sequence of successful appends to a
container whose searchable field names are distinct, every searchable
field's index holds exactly the `(sort_key, record_position)` pairs of the
entry sequence — exactly one pair per record, with the record's converted
field value as the key — and is strictly sorted by `(sort_key, position)`
ascending (sort key primary, insertion position as tie-break). -/
theorem C4_amended (reg : Registry) (c : LogContainer) (hr : Reach reg c)
    (hnd : c.searchable_fields.Nodup) (f : String)
    (hf : f ∈ c.searchable_fields) :
    (c.buckets f).Perm (keyPairsAux reg f 0 c.entries) ∧
    List.Pairwise (fun x y => pltB x y = true) (c.buckets f) ∧
    (∀ i, i < c.entries.length →
      (c.buckets f).countP (fun p => decide (p.2 = i)) = 1) ∧
    (∀ p ∈ c.buckets f, p.2 < c.entries.length ∧
      entryKey reg f (c.entries.getD p.2 []) = .ok p.1) := by
  obtain ⟨g1, g2, g3⟩ := reach_inv hr hnd f hf
  refine ⟨g2, g3, ?_, ?_⟩
  · intro i hi
    rw [g2.countP_eq, keyPairsAux_countP reg f c.entries 0 i,
      if_pos ⟨Nat.zero_le i, by omega⟩]
  · intro p hp
    obtain ⟨d, hd, hp2, hp1⟩ := mem_keyPairsAux.mp (g2.mem_iff.mp hp)
    have hdp : p.2 = d := by omega
    refine ⟨by omega, ?_⟩
    have hget : c.entries.getD p.2 [] ∈ c.entries := by
      rw [List.getD_eq_getElem c.entries [] (by omega)]
      exact List.getElem_mem (by omega)
    rw [g1 _ hget, hdp, hp1]

/-- Witness for C4's amended theorem on the concrete two-entry container. -/
theorem C4_witness :
    (wC2.buckets "a").Perm (keyPairsAux regId "a" 0 wC2.entries) ∧
    List.Pairwise (fun x y => pltB x y = true) (wC2.buckets "a") ∧
    (∀ i, i < wC2.entries.length →
      (wC2.buckets "a").countP (fun p => decide (p.2 = i)) = 1) ∧
    (∀ p ∈ wC2.buckets "a", p.2 < wC2.entries.length ∧
      entryKey regId "a" (wC2.entries.getD p.2 []) = .ok p.1) :=
  C4_amended regId wC2 wC2_reach (by decide) "a" (by decide)

/-- Claim C5: a line matching the header grammar (regex match plus a valid
timestamp, which is what lets a new record begin) makes `loadStep` behave
identically whether or not a previous record is `Accumulating` — the pending
record is discarded without ever being appended and the new record begins;
and when the input ends while `Accumulating`, `load` returns the folded
container with no exception, the pending record dropped (never appended). -/
theorem C5_discard_unterminated :
    (∀ (reg : Registry) (c : LogContainer) (ed : LogEntry) (line : String)
      (g : EntryMatch) (dt : PyDateTime),
      matchEntry line = some g → strptimeDT g.date = some dt →
      loadStep reg (c, some ed) line = loadStep reg (c, none) line) ∧
    (∀ (reg : Registry) (c0 c : LogContainer) (ed : LogEntry)
      (lines : List String),
      loadFold reg lines (c0, none) = ((c, some ed), none) →
      load reg c0 lines = (c, none)) := by
  constructor
  · intro reg c ed line g dt hm hs
    simp only [loadStep, hm, hs]
  · intro reg c0 c ed lines hfold
    simp only [load, hfold]

/-- Witness for C5: a complete header line wins over a pending record, and a
single unterminated header line loads to the untouched container with no
failure. -/
theorem C5_witness :
    loadStep customReg
        (mkCustomLog, some ⟨⟨2011, 1, 1, 0, 0, 0⟩, "DEBUG", "SID:9", "BID:9",
          "RID:9", "'X\n"⟩)
        "2012-01-01 00:00:01 DEBUG SID:1 BID:2 RID:3 'A'" =
      loadStep customReg (mkCustomLog, none)
        "2012-01-01 00:00:01 DEBUG SID:1 BID:2 RID:3 'A'" ∧
    load customReg mkCustomLog
        ["2012-01-01 00:00:00 DEBUG SID:1 BID:2 RID:3 'A\n"] =
      (mkCustomLog, none) :=
  ⟨C5_discard_unterminated.1 customReg mkCustomLog
      ⟨⟨2011, 1, 1, 0, 0, 0⟩, "DEBUG", "SID:9", "BID:9", "RID:9", "'X\n"⟩
      "2012-01-01 00:00:01 DEBUG SID:1 BID:2 RID:3 'A'"
      ⟨"2012-01-01 00:00:01", "DEBUG", "SID:1", "BID:2", "RID:3", "'A'"⟩
      ⟨2012, 1, 1, 0, 0, 1⟩ (by decide) (by decide),
    C5_discard_unterminated.2 customReg mkCustomLog mkCustomLog
      ⟨⟨2012, 1, 1, 0, 0, 0⟩, "DEBUG", "SID:1", "BID:2", "RID:3", "'A\n"⟩
      ["2012-01-01 00:00:00 DEBUG SID:1 BID:2 RID:3 'A\n"] rfl⟩

/-- Claim C6: the two-line input whose quoted message contains an embedded
line break loads to exactly one record whose message keeps both boundary
quotes and the newline; and, in general, a non-header continuation line
that after trailing-whitespace trimming is empty or does not end with the
boundary marker is appended raw (terminator included) to the open message,
the parser staying in the `Accumulating` state. -/
theorem C6_multiline :
    ((load customReg mkCustomLog
        ["2012-01-01 00:00:00 DEBUG SID:1 BID:2 RID:3 'A\n", "B'"]).2 =
        none ∧
      (load customReg mkCustomLog
        ["2012-01-01 00:00:00 DEBUG SID:1 BID:2 RID:3 'A\n", "B'"]).1.entries =
        [LogEntry.toEntry ⟨⟨2012, 1, 1, 0, 0, 0⟩, "DEBUG", "SID:1", "BID:2",
          "RID:3", "'A\nB'"⟩]) ∧
    (∀ (reg : Registry) (c : LogContainer) (ed : LogEntry) (line : String),
      matchEntry line = none →
      (rstrip line = "" ∨ lastCharIs (rstrip line) '\'' = false) →
      loadStep reg (c, some ed) line =
        ((c, some { ed with message := ed.message ++ line }), none)) := by
  constructor
  · exact ⟨by decide, by decide⟩
  · intro reg c ed line hm hcond
    simp only [loadStep, hm]
    rcases hcond with h | h
    · rw [if_pos (Or.inl h)]
    · rw [if_pos (Or.inr (by simp [h]))]

/-- Witness for C6's continuation rule at a concrete accumulating state. -/
theorem C6_witness :
    loadStep customReg
        (mkCustomLog, some ⟨⟨2012, 1, 1, 0, 0, 0⟩, "DEBUG", "SID:1", "BID:2",
          "RID:3", "'A\n"⟩) "mid line\n" =
      ((mkCustomLog, some ⟨⟨2012, 1, 1, 0, 0, 0⟩, "DEBUG", "SID:1", "BID:2",
        "RID:3", "'A\n" ++ "mid line\n"⟩), none) :=
  C6_multiline.2 customReg mkCustomLog
    ⟨⟨2012, 1, 1, 0, 0, 0⟩, "DEBUG", "SID:1", "BID:2", "RID:3", "'A\n"⟩
    "mid line\n" (by decide) (Or.inr (by decide))

/-- Claim C8: the severity converter maps each recognized token to a fixed
numeric rank whose order (ERROR `2` before WARN `4` before DEBUG `8`)
differs from the alphabetical order of the tokens (where DEBUG comes before
ERROR before WARN); every other value fails the conversion with the
unknown-loglevel `ValueError`, and that error propagates out of `append` (on
a container with the `CustomLog` searchable fields) and out of `find_by`. -/
theorem C8_severity_converter :
    (loglevel_converter (.str "ERROR") = .ok (.int 2) ∧
      loglevel_converter (.str "WARN") = .ok (.int 4) ∧
      loglevel_converter (.str "DEBUG") = .ok (.int 8) ∧
      valLT (Value.int 2) (Value.int 4) = true ∧
      valLT (Value.int 4) (Value.int 8) = true ∧
      valLT (Value.str "DEBUG") (Value.str "ERROR") = true ∧
      valLT (Value.str "ERROR") (Value.str "WARN") = true) ∧
    (∀ v : Value, v ≠ .str "ERROR" → v ≠ .str "WARN" → v ≠ .str "DEBUG" →
      loglevel_converter v = .error .unknownLoglevel) ∧
    (∀ (c : LogContainer) (le : LogEntry),
      c.searchable_fields = customSearchable →
      le.loglevel ≠ "ERROR" → le.loglevel ≠ "WARN" → le.loglevel ≠ "DEBUG" →
      (LogContainer.append customReg c le.toEntry).2 =
        some Err.unknownLoglevel) ∧
    (∀ (c : LogContainer) (v vto : Value),
      loglevel_converter v = .error .unknownLoglevel →
      LogContainer.find_by customReg c "loglevel" v vto =
        .error Err.unknownLoglevel) := by
  refine ⟨⟨by decide, by decide, by decide, by decide, by decide, by decide,
    by decide⟩, ?_, ?_, ?_⟩
  · intro v h1 h2 h3
    simp only [loglevel_converter, if_neg h1, if_neg h2, if_neg h3]
  · intro c le hsf h1 h2 h3
    have hconv : marshall_value customReg "loglevel" (Value.str le.loglevel) =
        .error .unknownLoglevel := by
      have he : marshall_value customReg "loglevel" (Value.str le.loglevel) =
          loglevel_converter (Value.str le.loglevel) := rfl
      rw [he]
      simp only [loglevel_converter]
      rw [if_neg (by simp [h1]), if_neg (by simp [h2]), if_neg (by simp [h3])]
    have hdate : marshall_value customReg "date" (Value.date le.date) =
        .ok (.int (toEpochSeconds le.date)) := rfl
    have hgd : getattr le.toEntry "date" = some (Value.date le.date) := rfl
    have hgl : getattr le.toEntry "loglevel" =
        some (Value.str le.loglevel) := rfl
    simp only [LogContainer.append, hsf, customSearchable, appendFields,
      hgd, hgl, hdate, hconv]
  · intro c v vto h
    have hmar : marshall_value customReg "loglevel" v =
        .error Err.unknownLoglevel := by
      have he : marshall_value customReg "loglevel" v =
          loglevel_converter v := rfl
      rw [he, h]
    unfold LogContainer.find_by
    rw [hmar]

/-- Witness for C8 at the unrecognized token `INFO`. -/
theorem C8_witness :
    loglevel_converter (.str "INFO") = .error .unknownLoglevel ∧
    (LogContainer.append customReg mkCustomLog
      (LogEntry.toEntry ⟨⟨2012, 1, 1, 0, 0, 0⟩, "INFO", "SID:1", "BID:2",
        "RID:3", "'A'"⟩)).2 = some Err.unknownLoglevel ∧
    LogContainer.find_by customReg mkCustomLog "loglevel"
      (Value.str "INFO") Value.vnone = .error Err.unknownLoglevel :=
  ⟨C8_severity_converter.2.1 (.str "INFO") (by decide) (by decide) (by decide),
    C8_severity_converter.2.2.1 mkCustomLog
      ⟨⟨2012, 1, 1, 0, 0, 0⟩, "INFO", "SID:1", "BID:2", "RID:3", "'A'"⟩
      rfl (by decide) (by decide) (by decide),
    C8_severity_converter.2.2.2 mkCustomLog (Value.str "INFO") Value.vnone
      (by decide)⟩

/-- Claim C9, counterexample. After a `CustomLog` has been constructed (the
shared class-level registry now holds converters), a plain
`LogContainer(['a'])` is built; `find_by('date', 'x')` has `'date'` outside
the searchable set, yet the call raises `TypeError` (the datetime converter
applied to a string during value conversion, which happens BEFORE the bucket
lookup), not the unknown-field `ValueError` the claim requires. -/
theorem C9_counterexample :
    ("date" ∉ (mkLogContainer ["a"]).searchable_fields) ∧
    LogContainer.find_by customReg (mkLogContainer ["a"]) "date"
      (Value.str "x") Value.vnone = .error Err.typeErr := by
  refine ⟨by decide, by decide⟩

/-- Claim C9, amended: `find_by` on a field outside the searchable set never
returns a result (the model is read-only, so the container is unchanged);
it raises the unknown-field `ValueError` whenever conversion of the query
value(s) succeeds — in particular always when the shared registry holds no
converter for that name, e.g. in a world where no `CustomLog` was
constructed — but a failing registered converter makes its own error
propagate first. -/
theorem C9_amended :
    (∀ (reg : Registry) (c : LogContainer) (f : String) (v vto : Value),
      f ∉ c.searchable_fields →
      ∀ r, LogContainer.find_by reg c f v vto ≠ .ok r) ∧
    (∀ (reg : Registry) (c : LogContainer) (f : String) (v vto v1 : Value),
      f ∉ c.searchable_fields →
      marshall_value reg f v = .ok v1 →
      (truthy vto = false ∨ ∃ w, marshall_value reg f vto = .ok w) →
      LogContainer.find_by reg c f v vto = .error .unknownField) := by
  constructor
  · intro reg c f v vto hf r
    unfold LogContainer.find_by
    split
    · exact fun h => Except.noConfusion h
    · split
      · exact fun h => Except.noConfusion h
      · rw [if_neg hf]
        exact fun h => Except.noConfusion h
  · intro reg c f v vto v1 hf hm1 hm2
    unfold LogContainer.find_by
    rw [hm1]
    rcases hm2 with h | ⟨w, hw⟩
    · simp [h, if_neg hf]
    · cases ht : truthy vto
      · simp [ht, if_neg hf]
      · simp [ht, hw, if_neg hf]

/-- Witness for C9's amended theorem. -/
theorem C9_witness :
    (∀ r, LogContainer.find_by customReg (mkLogContainer ["a"]) "date"
      (Value.str "x") Value.vnone ≠ .ok r) ∧
    LogContainer.find_by regId (mkLogContainer ["a"]) "nonexistent"
      (Value.int 7) Value.vnone = .error .unknownField :=
  ⟨C9_amended.1 customReg (mkLogContainer ["a"]) "date" (Value.str "x")
      Value.vnone (by decide),
    C9_amended.2 regId (mkLogContainer ["a"]) "nonexistent" (Value.int 7)
      Value.vnone (Value.int 7) (by decide) (by decide)
      (Or.inl (by decide))⟩

/-- Claim C10: a falsy `value_to` (Python `if value_to:`) makes `find_by`
behave exactly as the point query with no `value_to`: the supplied upper
bound is ignored and replaced by the converted `value`. -/
theorem C10_falsy_value_to (reg : Registry) (c : LogContainer) (f : String)
    (v vto : Value) (h : truthy vto = false) :
    LogContainer.find_by reg c f v vto =
      LogContainer.find_by reg c f v .vnone := by
  unfold LogContainer.find_by
  rw [h]
  rfl

/-- Witness for C10: the range call `find_by('a', -5, 0)` with the falsy
bound `0` coincides with the point query `find_by('a', -5)`. -/
theorem C10_witness :
    truthy (Value.int 0) = false ∧
    LogContainer.find_by regId wC2 "a" (Value.int (-5)) (Value.int 0) =
      LogContainer.find_by regId wC2 "a" (Value.int (-5)) Value.vnone :=
  ⟨by decide, C10_falsy_value_to regId wC2 "a" (Value.int (-5))
    (Value.int 0) (by decide)⟩

/-- Appending a `LogEntry` with a recognized severity to a container with the
`CustomLog` searchable fields always succeeds, the record going to the end of
`entries` (all four converters are total on the namedtuple's field types
apart from the severity check). -/
theorem customAppend_ok (c : LogContainer)
    (hsf : c.searchable_fields = customSearchable) (le : LogEntry)
    (h3 : le.loglevel = "DEBUG" ∨ le.loglevel = "WARN" ∨ le.loglevel = "ERROR") :
    (LogContainer.append customReg c le.toEntry).2 = none ∧
    (LogContainer.append customReg c le.toEntry).1.entries =
      c.entries ++ [le.toEntry] := by
  refine ⟨?_, rfl⟩
  have hgd : getattr le.toEntry "date" = some (Value.date le.date) := rfl
  have hgl : getattr le.toEntry "loglevel" =
    some (Value.str le.loglevel) := rfl
  have hgs : getattr le.toEntry "sessionid" =
    some (Value.str le.sessionid) := rfl
  have hgb : getattr le.toEntry "businessid" =
    some (Value.str le.businessid) := rfl
  have hdate : marshall_value customReg "date" (Value.date le.date) =
    .ok (.int (toEpochSeconds le.date)) := rfl
  have hsid : marshall_value customReg "sessionid" (Value.str le.sessionid) =
    .ok (.str (String.mk (le.sessionid.data.drop 4))) := rfl
  have hbid : marshall_value customReg "businessid" (Value.str le.businessid) =
    .ok (.str (String.mk (le.businessid.data.drop 4))) := rfl
  rcases h3 with h | h | h
  · have hll : marshall_value customReg "loglevel" (Value.str le.loglevel) =
        .ok (.int 8) := by rw [h]; exact rfl
    simp only [LogContainer.append, hsf, customSearchable, appendFields,
      hgd, hgl, hgs, hgb, hdate, hll, hsid, hbid]
  · have hll : marshall_value customReg "loglevel" (Value.str le.loglevel) =
        .ok (.int 4) := by rw [h]; exact rfl
    simp only [LogContainer.append, hsf, customSearchable, appendFields,
      hgd, hgl, hgs, hgb, hdate, hll, hsid, hbid]
  · have hll : marshall_value customReg "loglevel" (Value.str le.loglevel) =
        .ok (.int 2) := by rw [h]; exact rfl
    simp only [LogContainer.append, hsf, customSearchable, appendFields,
      hgd, hgl, hgs, hgb, hdate, hll, hsid, hbid]

/-- Claim C7, counterexample. The line
`1850-01-01 00:00:01 DEBUG SID:1 BID:2 RID:3 'A'` matches the header grammar
and its message completes on the same line, so loading it appends exactly one
record; but Python 2's `datetime.strftime` requires `year >= 1900`, so
`str(record)` raises `ValueError` instead of reproducing the line. -/
theorem C7_counterexample :
    (load customReg mkCustomLog
      ["1850-01-01 00:00:01 DEBUG SID:1 BID:2 RID:3 'A'"]).2 = none ∧
    (load customReg mkCustomLog
      ["1850-01-01 00:00:01 DEBUG SID:1 BID:2 RID:3 'A'"]).1.entries =
      [LogEntry.toEntry ⟨⟨1850, 1, 1, 0, 0, 1⟩, "DEBUG", "SID:1", "BID:2",
        "RID:3", "'A'"⟩] ∧
    LogEntry.render ⟨⟨1850, 1, 1, 0, 0, 1⟩, "DEBUG", "SID:1", "BID:2",
      "RID:3", "'A'"⟩ = .error Err.badDate := by
  refine ⟨by decide, by decide, by decide⟩

/-- Claim C7, amended: a single line that matches the header grammar (regex
match, valid timestamp, recognized severity per the grammar's fixed token
set), whose message is completed on that same line and which carries no line
terminator, loads to exactly one record; and provided the parsed year is at
least 1900 (below that, Python 2's `strftime` raises `ValueError` out of
`__str__`), the record's canonical string rendering reproduces the original
line byte for byte. -/
theorem C7_amended (line : String) (g : EntryMatch) (dt : PyDateTime)
    (h1 : matchEntry line = some g)
    (h2 : strptimeDT g.date = some dt)
    (h3 : g.loglevel = "DEBUG" ∨ g.loglevel = "WARN" ∨ g.loglevel = "ERROR")
    (h4 : lastCharIs g.message '\'' = true)
    (h5 : '\n' ∉ line.data)
    (h6 : 1900 ≤ dt.year) :
    (load customReg mkCustomLog [line]).2 = none ∧
    (load customReg mkCustomLog [line]).1.entries =
      [LogEntry.toEntry ⟨dt, g.loglevel, g.sessionid, g.businessid,
        g.requestid, g.message⟩] ∧
    LogEntry.render ⟨dt, g.loglevel, g.sessionid, g.businessid, g.requestid,
      g.message⟩ = .ok line := by
  obtain ⟨happ2, happ1⟩ := customAppend_ok mkCustomLog rfl
    ⟨dt, g.loglevel, g.sessionid, g.businessid, g.requestid, g.message⟩ h3
  have hpair : LogContainer.append customReg mkCustomLog
      (LogEntry.toEntry ⟨dt, g.loglevel, g.sessionid, g.businessid,
        g.requestid, g.message⟩) =
      ((LogContainer.append customReg mkCustomLog
        (LogEntry.toEntry ⟨dt, g.loglevel, g.sessionid, g.businessid,
          g.requestid, g.message⟩)).1, none) :=
    Prod.ext_iff.mpr ⟨rfl, happ2⟩
  have hstep : loadStep customReg (mkCustomLog, none) line =
      (((LogContainer.append customReg mkCustomLog
        (LogEntry.toEntry ⟨dt, g.loglevel, g.sessionid, g.businessid,
          g.requestid, g.message⟩)).1, none), none) := by
    simp only [loadStep, h1, h2]
    rw [if_pos h4, hpair]
  have hload : load customReg mkCustomLog [line] =
      ((LogContainer.append customReg mkCustomLog
        (LogEntry.toEntry ⟨dt, g.loglevel, g.sessionid, g.businessid,
          g.requestid, g.message⟩)).1, none) := by
    simp only [load, loadFold, hstep]
  refine ⟨by rw [hload], ?_, ?_⟩
  · rw [hload]
    rw [happ1]
    exact rfl
  · obtain ⟨rest, hdec, hres⟩ := matchEntry_decomp h1
    have hrest : rest = [] := by
      rcases hres with rfl | hmem
      · rfl
      · exfalso
        apply h5
        rw [hdec]
        simp [hmem]
    have hfd : formatDT dt = g.date := strftime_strptime h2
    have hne : ¬ dt.year < 1900 := by omega
    have hren : LogEntry.render ⟨dt, g.loglevel, g.sessionid, g.businessid,
        g.requestid, g.message⟩ =
        .ok (formatDT dt ++ " " ++ g.loglevel ++ " " ++ g.sessionid ++ " " ++
          g.businessid ++ " " ++ g.requestid ++ " " ++ g.message) := by
      dsimp only [LogEntry.render, strftimeDT]
      rw [if_neg hne]
    rw [hren]
    refine congrArg Except.ok ?_
    refine String.ext ?_
    have hsp : (" " : String).data = [' '] := rfl
    show (formatDT dt ++ " " ++ g.loglevel ++ " " ++ g.sessionid ++ " " ++
      g.businessid ++ " " ++ g.requestid ++ " " ++ g.message).data = line.data
    rw [hfd, hdec, hrest]
    simp [String.data_append, hsp, List.append_assoc]

/-- Witness for C7's amended theorem at a concrete well-formed single-line
record with a post-1900 year. -/
theorem C7_witness :
    (load customReg mkCustomLog
      ["2012-01-01 00:00:01 DEBUG SID:1 BID:2 RID:3 'A'"]).2 = none ∧
    (load customReg mkCustomLog
      ["2012-01-01 00:00:01 DEBUG SID:1 BID:2 RID:3 'A'"]).1.entries =
      [LogEntry.toEntry ⟨⟨2012, 1, 1, 0, 0, 1⟩, "DEBUG", "SID:1", "BID:2",
        "RID:3", "'A'"⟩] ∧
    LogEntry.render ⟨⟨2012, 1, 1, 0, 0, 1⟩, "DEBUG", "SID:1", "BID:2",
      "RID:3", "'A'"⟩ =
      .ok "2012-01-01 00:00:01 DEBUG SID:1 BID:2 RID:3 'A'" :=
  C7_amended "2012-01-01 00:00:01 DEBUG SID:1 BID:2 RID:3 'A'"
    ⟨"2012-01-01 00:00:01", "DEBUG", "SID:1", "BID:2", "RID:3", "'A'"⟩
    ⟨2012, 1, 1, 0, 0, 1⟩ (by decide) (by decide) (Or.inl rfl) (by decide)
    (by decide) (by decide)
